import Mathlib

/-!
A verification development for `sprite_extractor.py`: a sprite-sheet splitter
that builds a boolean foreground mask, downscales it into tile-sized coarse
cells, finds 8-connected components of the coarse grid by BFS flood fill,
filters and sorts them, and emits one alpha-masked crop per component plus an
atlas descriptor.

The embedding below mirrors the Python source function by function.  Pixel
grids are modelled as functions `Nat → Nat → RGBA` together with explicit
dimensions; the nested boolean lists (`List (List Bool)`) mirror the Python
lists of lists; the BFS work queue is modelled with an explicit fuel argument
(the loop in the source terminates because every enqueue marks a fresh cell
visited; fuel `sw * sh + 1` is proved sufficient below).  File writes are
modelled by returning the data that would be written.
-/

set_option maxHeartbeats 1000000

abbrev RGB := Nat × Nat × Nat

abbrev RGBA := Nat × Nat × Nat × Nat

abbrev Cell := Nat × Nat

/-- A decoded image: dimensions, pixel accessor and whether the image carries
an alpha band (`"A" in img.getbands()`). For images without alpha the fourth
pixel component is ignored by the code. -/
structure Img where
  w : Nat
  h : Nat
  px : Nat → Nat → RGBA
  hasAlpha : Bool

def rgbOf (c : RGBA) : RGB := (c.1, c.2.1, c.2.2.1)

def alphaOf (c : RGBA) : Nat := c.2.2.2

/-- Model of `img.convert("RGBA")`: keeps pixels of an alpha image, gives full opacity
(alpha 255) to every pixel of an image without an alpha band. -/
def toRGBA (img : Img) : Nat → Nat → RGBA := fun x y =>
  if img.hasAlpha then img.px x y
  else ((img.px x y).1, (img.px x y).2.1, (img.px x y).2.2.1, 255)

/-- Bounds-defaulting lookup `m[y][x]` of a nested boolean list (Python raises
on out-of-range access; in-bounds uses coincide). -/
def maskAt (m : List (List Bool)) (x y : Nat) : Bool := (m.getD y []).getD x false

/-! Section: `most_common_rgb` (source lines 57-62) -/

/-- The sampling stride: `1 if w * h <= 2_000_000 else 2`. -/
def sampleStep (img : Img) : Nat := if img.w * img.h ≤ 2000000 then 1 else 2

/-- Python `range(0, stop, step)` for `step > 0`. -/
def pyRange (stop step : Nat) : List Nat := List.range' 0 ((stop + step - 1) / step) step

/-- The colors fed to the `Counter`, in generator order
(`px[x, y] for y in range(0, h, step) for x in range(0, w, step)`). -/
def sampledColors (img : Img) : List RGB :=
  (pyRange img.h (sampleStep img)).flatMap fun y =>
    (pyRange img.w (sampleStep img)).map fun x => rgbOf (img.px x y)

/-- The keys of a `Counter` built from a list, in insertion order, i.e. the
distinct values in order of first occurrence. -/
def firstOccs : List RGB → List RGB
  | [] => []
  | c :: rest => c :: firstOccs (rest.filter fun d => d ≠ c)
termination_by l => l.length
decreasing_by
  simp only [List.length_cons]
  exact Nat.lt_succ_of_le (List.length_filter_le _ _)

/-- The largest multiplicity occurring in the sample list. -/
def maxCount (s : List RGB) : Nat := (s.map fun c => s.count c).foldr max 0

/-- Model of `Counter(...).most_common(1)[0][0] if c else (0, 0, 0)`:
`most_common` sorts the counter items by count, descending and stable over
insertion order, so the result is the first-encountered color among those of
maximal sampled frequency. -/
def most_common_rgb (img : Img) : RGB :=
  let s := sampledColors img
  ((firstOccs s).find? fun c => s.count c = maxCount s).getD (0, 0, 0)

/-! Section: `foreground_mask` (source lines 65-73) -/

/-- The full-resolution occupancy mask: with an alpha band a pixel is
foreground iff its alpha is positive, otherwise iff its RGB value differs from
the most common sampled color. -/
def foreground_mask (img : Img) : List (List Bool) :=
  if img.hasAlpha then
    (List.range img.h).map fun y =>
      (List.range img.w).map fun x => decide (0 < alphaOf (img.px x y))
  else
    let bg := most_common_rgb img
    (List.range img.h).map fun y =>
      (List.range img.w).map fun x => decide (rgbOf (img.px x y) ≠ bg)

/-! Section: `downscale_any` (source lines 76-88) -/

/-- Row count of a nested list, `len(mask)`. -/
def gridH (m : List (List Bool)) : Nat := m.length

/-- Column count, `len(mask[0]) if h else 0`. -/
def gridW (m : List (List Bool)) : Nat := (m.headD []).length

/-- A nested list is an actual `w × h` grid: every row has the width of the
first one. -/
abbrev WFgrid (m : List (List Bool)) : Prop := ∀ row ∈ m, row.length = gridW m

/-- Aggregate the mask into `tile × tile` blocks (clipped at the right/bottom
edges); a coarse cell is true iff any pixel of its block is. Returns the
coarse grid together with its dimensions `sw, sh`. -/
def downscale_any (mask : List (List Bool)) (tile : Nat) :
    List (List Bool) × Nat × Nat :=
  let h := gridH mask
  let w := gridW mask
  let sw := (w + tile - 1) / tile
  let sh := (h + tile - 1) / tile
  (((List.range sh).map fun sy =>
      (List.range sw).map fun sx =>
        (List.range' (sy * tile) (min ((sy + 1) * tile) h - sy * tile)).any fun y =>
          (List.range' (sx * tile) (min ((sx + 1) * tile) w - sx * tile)).any fun x =>
            maskAt mask x y),
    sw, sh)

/-! Section: `flood_components_8` (source lines 91-124) -/

/-- The eight neighbor offsets, in source order
(`for dy in (-1,0,1) for dx in (-1,0,1) if not (dx==0 and dy==0)`). -/
def nbrOffsets : List (Int × Int) :=
  [(-1, -1), (0, -1), (1, -1), (-1, 0), (1, 0), (-1, 1), (0, 1), (1, 1)]

/-- The in-bounds 8-neighbors of a cell (`0 <= nx < sw and 0 <= ny < sh`). -/
def neighborsOf (sw sh : Nat) (c : Cell) : List Cell :=
  nbrOffsets.filterMap fun d =>
    let nx : Int := (c.1 : Int) + d.1
    let ny : Int := (c.2 : Int) + d.2
    if 0 ≤ nx ∧ nx < (sw : Int) ∧ 0 ≤ ny ∧ ny < (sh : Int) then
      some (nx.toNat, ny.toNat)
    else none

/-- Occupancy lookup `small[y][x]` for a cell `(x, y)`. -/
def occAt (g : List (List Bool)) (c : Cell) : Bool := (g.getD c.2 []).getD c.1 false

/-- The BFS inner loop (`while q:`): dequeue a cell, append it to the
component, enqueue its unvisited occupied in-bounds neighbors, marking them
visited on enqueue.  `fuel` bounds the number of iterations; each iteration
shrinks `q.length` plus the number of unvisited in-bounds cells by one, so any
fuel of at least that sum gives the exact loop result. Returns the component
cell list and the visited list. -/
def bfsLoop (small : List (List Bool)) (sw sh : Nat) :
    Nat → List Cell → List Cell → List Cell → List Cell × List Cell
  | _, [], vis, cells => (cells, vis)
  | 0, _ :: _, vis, cells => (cells, vis)
  | fuel + 1, c :: q, vis, cells =>
      let ns := (neighborsOf sw sh c).filter fun n => occAt small n && !vis.contains n
      bfsLoop small sw sh fuel (q ++ ns) (vis ++ ns) (cells ++ [c])

/-- Row-major enumeration of the grid cells
(`for y in range(sh): for x in range(sw):`). -/
def rowMajor (sw sh : Nat) : List Cell :=
  (List.range sh).flatMap fun y => (List.range sw).map fun x => (x, y)

/-- The outer scan: start a BFS at every occupied unvisited cell, appending the
resulting component. -/
def floodOuter (small : List (List Bool)) (sw sh : Nat) :
    List Cell → List Cell → List (List Cell) → List (List Cell) × List Cell
  | [], vis, comps => (comps, vis)
  | c :: rest, vis, comps =>
      if occAt small c && !vis.contains c then
        let r := bfsLoop small sw sh (sw * sh + 1) [c] (vis ++ [c]) []
        floodOuter small sw sh rest r.2 (comps ++ [r.1])
      else
        floodOuter small sw sh rest vis comps

/-- Connected components (8-connectivity) of the coarse grid, in discovery order. -/
def flood_components_8 (small : List (List Bool)) : List (List Cell) :=
  let sh := gridH small
  let sw := gridW small
  (floodOuter small sw sh (rowMajor sw sh) [] []).1

/-- Distance `|x - y|` on naturals. -/
def natDist (x y : Nat) : Nat := (x - y) + (y - x)

/-- Chebyshev distance between two cells. -/
def chebDist (a b : Cell) : Nat := max (natDist a.1 b.1) (natDist a.2 b.2)

/-- Row-major (reading) order on cells: smaller row first, then smaller
column; this is the "top-most, then left-most" order. -/
def rmLe (a b : Cell) : Prop := a.2 < b.2 ∨ (a.2 = b.2 ∧ a.1 ≤ b.1)

/-- Strict row-major order on cells. -/
def rmLt (a b : Cell) : Prop := a.2 < b.2 ∨ (a.2 = b.2 ∧ a.1 < b.1)

/-- The cell a component's BFS was seeded from: the first cell of its list. -/
def seedOf (K : List Cell) : Cell := K.headD (0, 0)

/-! Section: `sort_components` (source lines 127-146) -/

/-- Python `min` of a nonempty list (0 for the empty list, which the source
never passes). -/
def listMinD : List Nat → Nat
  | [] => 0
  | x :: xs => xs.foldl min x

/-- Python `max` of a nonempty list (0 for the empty list). -/
def listMaxD : List Nat → Nat
  | [] => 0
  | x :: xs => xs.foldl max x

/-- The key `(min(ys), min(xs), max(ys), max(xs))`. -/
def bbox_key (cells : List Cell) : Nat × Nat × Nat × Nat :=
  let xs := cells.map Prod.fst
  let ys := cells.map Prod.snd
  (listMinD ys, listMinD xs, listMaxD ys, listMaxD xs)

/-- Lexicographic comparison of Python 4-tuples. -/
def tupLe (p q : Nat × Nat × Nat × Nat) : Bool :=
  decide (p.1 < q.1 ∨ (p.1 = q.1 ∧ (p.2.1 < q.2.1 ∨ (p.2.1 = q.2.1 ∧
    (p.2.2.1 < q.2.2.1 ∨ (p.2.2.1 = q.2.2.1 ∧ p.2.2.2 ≤ q.2.2.2))))))

/-- Reorder components: `none` keeps discovery order, `topleft` sorts by
bounding-box tuple, `size` sorts by descending cell count (Python's `sorted`
is a stable ascending sort by key; the key for `size` is `-len(cells)`).
Any other mode raises `ValueError`. -/
def sort_components (comps : List (List Cell)) (mode : String) :
    Except String (List (List Cell)) :=
  if mode = "none" then Except.ok comps
  else if mode = "topleft" then
    Except.ok (comps.mergeSort fun a b => tupLe (bbox_key a) (bbox_key b))
  else if mode = "size" then
    Except.ok (comps.mergeSort fun a b => decide (b.length ≤ a.length))
  else Except.error ("Unknown sort mode: " ++ mode)

/-! Section: `apply_component_mask` (source lines 149-172) -/

/-- Crop the RGBA image to `crop_box` and erase (alpha := 0, RGB kept) every
crop pixel whose coarse cell is not in the component or whose full-resolution
mask entry is false; other pixels are copied unchanged.  The result is the
pixel function of the crop; `(p, q)` are crop-local coordinates. -/
def apply_component_mask (rgba : Nat → Nat → RGBA) (full_mask : List (List Bool))
    (cell_set : List Cell) (tile : Nat) (crop_box : Nat × Nat × Nat × Nat) :
    Nat → Nat → RGBA := fun p q =>
  let gx := crop_box.1 + p
  let gy := crop_box.2.1 + q
  let sx := gx / tile
  let sy := gy / tile
  let c := rgba gx gy
  if (sx, sy) ∉ cell_set ∨ maskAt full_mask gx gy = false then
    (c.1, c.2.1, c.2.2.1, 0)
  else c

/-! Section: `extract_sprites` (source lines 175-249) and `main` (252-304) -/

/-- One saved sprite image: the component's cells, the pixel-space crop box
`(x0, y0, x1, y1)` and the masked crop's pixels. -/
structure SpriteOut where
  cells : List Cell
  x0 : Nat
  y0 : Nat
  x1 : Nat
  y1 : Nat
  image : Nat → Nat → RGBA

/-- One record of the atlas descriptor. -/
structure SpriteRecord where
  id : Nat
  name : String
  x : Nat
  y : Nat
  w : Nat
  h : Nat
  mask_x : Nat
  mask_y : Nat
  mask_w : Nat
  mask_h : Nat
  image : String

/-- The atlas descriptor (`meta` fields inlined plus the sprite array). -/
structure Atlas where
  source : String
  image_w : Nat
  image_h : Nat
  tile : Nat
  mask_w : Nat
  mask_h : Nat
  count : Nat
  sprites : List SpriteRecord

/-- Zero padding `"%04d" % n`. -/
def pad4 (n : Nat) : String :=
  let s := toString n
  String.mk (List.replicate (4 - s.length) '0') ++ s

/-- The default labeler: base name of the written file without extension. -/
def send_to_vlm (sid : Nat) : String := "sprite_" ++ pad4 sid

/-- The per-component work of the `for sid, cells in enumerate(comps)` loop:
coarse bounding box, pixel-space crop box clipped to the image, masked crop. -/
def mkSprite (img : Img) (m : List (List Bool)) (tile : Nat) (cells : List Cell) :
    SpriteOut :=
  let xs := cells.map Prod.fst
  let ys := cells.map Prod.snd
  let sx0 := listMinD xs
  let sy0 := listMinD ys
  let sx1 := listMaxD xs + 1
  let sy1 := listMaxD ys + 1
  let x0 := sx0 * tile
  let y0 := sy0 * tile
  let x1 := min (sx1 * tile) img.w
  let y1 := min (sy1 * tile) img.h
  { cells := cells, x0 := x0, y0 := y0, x1 := x1, y1 := y1,
    image := apply_component_mask (toRGBA img) m cells tile (x0, y0, x1, y1) }

/-- The atlas record for sprite number `sid` built from `cells`. -/
def mkRecord (img : Img) (tile : Nat) (label : Bool) (sid : Nat) (cells : List Cell) :
    SpriteRecord :=
  let xs := cells.map Prod.fst
  let ys := cells.map Prod.snd
  let sx0 := listMinD xs
  let sy0 := listMinD ys
  let sx1 := listMaxD xs + 1
  let sy1 := listMaxD ys + 1
  let x0 := sx0 * tile
  let y0 := sy0 * tile
  let x1 := min (sx1 * tile) img.w
  let y1 := min (sy1 * tile) img.h
  let out_img := "sprite_" ++ pad4 sid ++ ".png"
  { id := sid, name := if label then send_to_vlm sid else out_img,
    x := x0, y := y0, w := x1 - x0, h := y1 - y0,
    mask_x := sx0, mask_y := sy0, mask_w := sx1 - sx0, mask_h := sy1 - sy0,
    image := out_img }

/-- The pipeline of `extract_sprites`: mask, downscale, flood fill, filter by
`min_cells`, sort, then crop-and-mask each component and assemble the atlas.
The error case is the `ValueError` of `sort_components`. -/
def extract_sprites (img : Img) (in_path : String) (tile : Nat) (sort_mode : String)
    (min_cells : Nat) (label : Bool) : Except String (List SpriteOut × Atlas) :=
  let m := foreground_mask img
  let dsc := downscale_any m tile
  let small := dsc.1
  let sw := dsc.2.1
  let sh := dsc.2.2
  let comps0 := flood_components_8 small
  let comps1 := comps0.filter fun c => min_cells ≤ c.length
  match sort_components comps1 sort_mode with
  | Except.error e => Except.error e
  | Except.ok comps =>
      Except.ok (comps.map (mkSprite img m tile),
        { source := in_path, image_w := img.w, image_h := img.h, tile := tile,
          mask_w := sw, mask_h := sh, count := comps.length,
          sprites := (comps.enum.map fun ic => mkRecord img tile label ic.1 ic.2) })

/-- The parsed command line (`argparse` already converted `--tile` and
`--min-cells` to integers; they may be negative). -/
structure Args where
  input : String
  out : String
  tile : Int
  atlas : String
  sort : String
  min_cells : Int
  no_label : Bool

/-- Allowed values of the `--sort` option. -/
def sortChoices : List String := ["none", "topleft", "size"]

/-- The whole program run on a decoded image: `argparse` rejects a sort mode
outside its `choices` with exit status 2 before anything else happens; `main`
then rejects `--tile <= 0` and `--min-cells <= 0` with `SystemExit` (status 1)
before the image is opened; otherwise the pipeline runs and the atlas is
written, with exit status 0.  Returns the exit status and the written atlas
(`none` when nothing was written). -/
def mainRun (a : Args) (img : Img) : Nat × Option Atlas :=
  if a.sort ∉ sortChoices then (2, none)
  else if a.tile ≤ 0 then (1, none)
  else if a.min_cells ≤ 0 then (1, none)
  else
    match extract_sprites img a.input a.tile.toNat a.sort a.min_cells.toNat
        (!a.no_label) with
    | Except.error _ => (1, none)
    | Except.ok r => (0, some r.2)

/-! Section: Neighbor lemmas -/

theorem mem_neighborsOf {sw sh : Nat} {c n : Cell} :
    n ∈ neighborsOf sw sh c ↔ n.1 < sw ∧ n.2 < sh ∧ chebDist c n = 1 := by
  constructor
  · intro h
    rw [neighborsOf, List.mem_filterMap] at h
    obtain ⟨d, hd, hfd⟩ := h
    simp only [nbrOffsets, List.mem_cons, List.not_mem_nil, or_false] at hd
    simp only at hfd
    split_ifs at hfd with hcond
    · obtain ⟨h1, h2, h3, h4⟩ := hcond
      injection hfd with hfd
      have hn1 : n.1 = ((c.1 : Int) + d.1).toNat := by rw [← hfd]
      have hn2 : n.2 = ((c.2 : Int) + d.2).toNat := by rw [← hfd]
      rcases hd with h | h | h | h | h | h | h | h <;> subst h <;>
        simp only [chebDist, natDist] at * <;> omega
  · rintro ⟨h1, h2, h3⟩
    rw [neighborsOf, List.mem_filterMap]
    refine ⟨((n.1 : Int) - (c.1 : Int), (n.2 : Int) - (c.2 : Int)), ?_, ?_⟩
    · simp only [nbrOffsets, List.mem_cons, List.not_mem_nil, or_false, Prod.mk.injEq]
      simp only [chebDist, natDist] at h3
      omega
    · simp only
      rw [if_pos (by omega)]
      have e1 : ((c.1 : Int) + ((n.1 : Int) - (c.1 : Int))).toNat = n.1 := by omega
      have e2 : ((c.2 : Int) + ((n.2 : Int) - (c.2 : Int))).toNat = n.2 := by omega
      rw [e1, e2]

theorem neighborsOf_nodup (sw sh : Nat) (c : Cell) : (neighborsOf sw sh c).Nodup := by
  apply List.Nodup.filterMap
  · intro d d' b hb hb'
    simp only [Option.mem_def] at hb hb'
    split_ifs at hb hb' with h1 h2
    · injection hb with hb
      injection hb' with hb'
      have b1 := congrArg Prod.fst hb
      have b2 := congrArg Prod.snd hb
      have b1' := congrArg Prod.fst hb'
      have b2' := congrArg Prod.snd hb'
      simp only at b1 b2 b1' b2'
      obtain ⟨ha, hb_⟩ := h1
      obtain ⟨ha', hb'_⟩ := h2
      have : d.1 = d'.1 := by omega
      have : d.2 = d'.2 := by omega
      exact Prod.ext (by omega) (by omega)
  · decide

theorem neighborsOf_symm {sw sh : Nat} {a c : Cell} (h : a ∈ neighborsOf sw sh c)
    (h1 : c.1 < sw) (h2 : c.2 < sh) : c ∈ neighborsOf sw sh a := by
  rw [mem_neighborsOf] at h ⊢
  refine ⟨h1, h2, ?_⟩
  have := h.2.2
  simp only [chebDist, natDist] at *
  omega

theorem chebDist_comm (a b : Cell) : chebDist a b = chebDist b a := by
  simp only [chebDist, natDist]
  omega

/-! Section: Grid bounds -/

theorem occAt_bounds {m : List (List Bool)} (hwf : WFgrid m) {c : Cell}
    (h : occAt m c = true) : c.1 < gridW m ∧ c.2 < gridH m := by
  rw [occAt] at h
  have h2 : c.2 < m.length := by
    by_contra h2
    rw [List.getD_eq_default m [] (by omega)] at h
    simp [List.getD] at h
  rw [List.getD_eq_getElem m [] h2] at h
  have hlen : m[c.2].length = gridW m := hwf _ (List.getElem_mem h2)
  have h1 : c.1 < m[c.2].length := by
    by_contra h1
    rw [List.getD_eq_default _ _ (by omega)] at h
    exact absurd h (by simp)
  exact ⟨hlen ▸ h1, h2⟩

/-! Section: BFS fuel accounting -/

/-- All in-bounds cells of an `sw × sh` grid. -/
def boundsFinset (sw sh : Nat) : Finset Cell := Finset.range sw ×ˢ Finset.range sh

/-- Number of in-bounds cells not yet visited. -/
def slack (sw sh : Nat) (vis : List Cell) : Nat :=
  ((boundsFinset sw sh).filter fun c => c ∉ vis).card

theorem slack_le (sw sh : Nat) (vis : List Cell) : slack sw sh vis ≤ sw * sh := by
  calc slack sw sh vis ≤ (boundsFinset sw sh).card := Finset.card_filter_le _ _
    _ = sw * sh := by
        rw [boundsFinset, Finset.card_product, Finset.card_range, Finset.card_range]

theorem slack_append {sw sh : Nat} {vis ns : List Cell} (hnodup : ns.Nodup)
    (hns : ∀ n ∈ ns, n.1 < sw ∧ n.2 < sh ∧ n ∉ vis) :
    slack sw sh (vis ++ ns) + ns.length ≤ slack sw sh vis := by
  have hsub : ns.toFinset ⊆ (boundsFinset sw sh).filter fun c => c ∉ vis := by
    intro n hn
    rw [List.mem_toFinset] at hn
    obtain ⟨h1, h2, h3⟩ := hns n hn
    simp only [boundsFinset, Finset.mem_filter, Finset.mem_product, Finset.mem_range]
    exact ⟨⟨h1, h2⟩, h3⟩
  have hsub2 : ((boundsFinset sw sh).filter fun c => c ∉ vis ++ ns) ⊆
      ((boundsFinset sw sh).filter fun c => c ∉ vis) \ ns.toFinset := by
    intro c hc
    rw [Finset.mem_filter] at hc
    have hc2 := hc.2
    rw [List.mem_append] at hc2
    rw [Finset.mem_sdiff, Finset.mem_filter, List.mem_toFinset]
    exact ⟨⟨hc.1, fun h => hc2 (Or.inl h)⟩, fun h => hc2 (Or.inr h)⟩
  have h1 := Finset.card_le_card hsub2
  have h2 : (((boundsFinset sw sh).filter fun c => c ∉ vis) \ ns.toFinset).card
      = ((boundsFinset sw sh).filter fun c => c ∉ vis).card - ns.toFinset.card :=
    Finset.card_sdiff hsub
  have h3 := Finset.card_le_card hsub
  have h4 : ns.toFinset.card = ns.length := List.toFinset_card_of_nodup hnodup
  rw [slack, slack]
  omega

/-! Section: BFS loop equations -/

theorem bfsLoop_nil (small : List (List Bool)) (sw sh fuel : Nat) (vis cells : List Cell) :
    bfsLoop small sw sh fuel [] vis cells = (cells, vis) := by
  cases fuel <;> rfl

theorem bfsLoop_cons (small : List (List Bool)) (sw sh fuel : Nat) (c : Cell)
    (q vis cells : List Cell) :
    bfsLoop small sw sh (fuel + 1) (c :: q) vis cells =
      bfsLoop small sw sh fuel
        (q ++ (neighborsOf sw sh c).filter fun n => occAt small n && !vis.contains n)
        (vis ++ (neighborsOf sw sh c).filter fun n => occAt small n && !vis.contains n)
        (cells ++ [c]) := rfl

theorem mem_bfsFilter {small : List (List Bool)} {sw sh : Nat} {c n : Cell}
    {vis : List Cell} :
    n ∈ ((neighborsOf sw sh c).filter fun n => occAt small n && !vis.contains n) ↔
      n ∈ neighborsOf sw sh c ∧ occAt small n = true ∧ n ∉ vis := by
  rw [List.mem_filter]
  simp [Bool.and_eq_true, and_assoc]

/-! Section: BFS master invariant -/
theorem bfsLoop_spec (small : List (List Bool)) (sw sh : Nat) :
    ∀ (fuel : Nat) (q vis cells : List Cell),
    q.length + slack sw sh vis ≤ fuel →
    q.Nodup → cells.Nodup →
    (∀ x ∈ q, x ∉ cells) →
    (∀ x ∈ q, x ∈ vis) → (∀ x ∈ cells, x ∈ vis) →
    (∀ x ∈ q, x.1 < sw ∧ x.2 < sh ∧ occAt small x = true) →
    (∀ x ∈ cells, x.1 < sw ∧ x.2 < sh ∧ occAt small x = true) →
    (∀ x ∈ cells, ∀ n ∈ neighborsOf sw sh x, occAt small n = true → n ∈ vis) →
    (bfsLoop small sw sh fuel q vis cells).1.Nodup ∧
    (∀ x, x ∈ (bfsLoop small sw sh fuel q vis cells).1 ↔
      x ∈ cells ∨ x ∈ q ∨ (x ∈ (bfsLoop small sw sh fuel q vis cells).2 ∧ x ∉ vis)) ∧
    (∀ x, x ∈ (bfsLoop small sw sh fuel q vis cells).2 ↔
      x ∈ vis ∨ x ∈ (bfsLoop small sw sh fuel q vis cells).1) ∧
    (∀ x ∈ (bfsLoop small sw sh fuel q vis cells).1,
      x.1 < sw ∧ x.2 < sh ∧ occAt small x = true) ∧
    (∀ x ∈ (bfsLoop small sw sh fuel q vis cells).1, ∀ n ∈ neighborsOf sw sh x,
      occAt small n = true → n ∈ (bfsLoop small sw sh fuel q vis cells).2) := by
  intro fuel
  induction fuel with
  | zero =>
    intro q vis cells hfuel hqnd hcnd hdisj hqv hcv hqg hcg hclosed
    match q, hfuel with
    | [], _ =>
      rw [bfsLoop_nil]
      refine ⟨hcnd, ?_, ?_, hcg, hclosed⟩
      · intro x
        constructor
        · exact fun h => Or.inl h
        · rintro (h | h | ⟨h1, h2⟩)
          · exact h
          · exact absurd h (List.not_mem_nil x)
          · exact absurd h1 h2
      · intro x
        constructor
        · exact fun h => Or.inl h
        · rintro (h | h)
          · exact h
          · exact hcv x h
    | c :: q', hfuel => simp at hfuel
  | succ fuel ih =>
    intro q vis cells hfuel hqnd hcnd hdisj hqv hcv hqg hcg hclosed
    match q, hfuel, hqnd, hdisj, hqv, hqg with
    | [], _, _, _, _, _ =>
      rw [bfsLoop_nil]
      refine ⟨hcnd, ?_, ?_, hcg, hclosed⟩
      · intro x
        constructor
        · exact fun h => Or.inl h
        · rintro (h | h | ⟨h1, h2⟩)
          · exact h
          · exact absurd h (List.not_mem_nil x)
          · exact absurd h1 h2
      · intro x
        constructor
        · exact fun h => Or.inl h
        · rintro (h | h)
          · exact h
          · exact hcv x h
    | c :: q', hfuel, hqnd, hdisj, hqv, hqg =>
      rw [bfsLoop_cons]
      set ns := (neighborsOf sw sh c).filter
        (fun n => occAt small n && !vis.contains n) with hns_def
      have hns_mem : ∀ n ∈ ns, n ∈ neighborsOf sw sh c ∧ occAt small n = true ∧ n ∉ vis :=
        fun n hn => mem_bfsFilter.mp hn
      have hns_nodup : ns.Nodup := (neighborsOf_nodup sw sh c).filter _
      have hcq' : c ∉ q' := (List.nodup_cons.mp hqnd).1
      have hq'nd : q'.Nodup := (List.nodup_cons.mp hqnd).2
      have hcvis : c ∈ vis := hqv c (List.mem_cons_self c q')
      have hcgood := hqg c (List.mem_cons_self c q')
      have hcnotcells : c ∉ cells := hdisj c (List.mem_cons_self c q')
      -- fuel obligation
      have hsl : slack sw sh (vis ++ ns) + ns.length ≤ slack sw sh vis := by
        apply slack_append hns_nodup
        intro n hn
        obtain ⟨h1, h2, h3⟩ := hns_mem n hn
        obtain ⟨b1, b2, _⟩ := mem_neighborsOf.mp h1
        exact ⟨b1, b2, h3⟩
      have hfuel' : (q' ++ ns).length + slack sw sh (vis ++ ns) ≤ fuel := by
        rw [List.length_append]
        simp only [List.length_cons] at hfuel
        omega
      have h2' : (q' ++ ns).Nodup := by
        rw [List.nodup_append]
        refine ⟨hq'nd, hns_nodup, ?_⟩
        intro x hx hx2
        exact (hns_mem x hx2).2.2 (hqv x (List.mem_cons_of_mem c hx))
      have h3' : (cells ++ [c]).Nodup := by
        rw [List.nodup_append]
        refine ⟨hcnd, List.nodup_singleton c, ?_⟩
        intro x hx hx2
        rw [List.mem_singleton] at hx2
        subst hx2
        exact hcnotcells hx
      have h4' : ∀ x ∈ q' ++ ns, x ∉ cells ++ [c] := by
        intro x hx hx2
        rw [List.mem_append] at hx
        rw [List.mem_append, List.mem_singleton] at hx2
        rcases hx with hx | hx
        · rcases hx2 with hx2 | hx2
          · exact hdisj x (List.mem_cons_of_mem c hx) hx2
          · subst hx2; exact hcq' hx
        · rcases hx2 with hx2 | hx2
          · exact (hns_mem x hx).2.2 (hcv x hx2)
          · subst hx2; exact (hns_mem x hx).2.2 hcvis
      have h5' : ∀ x ∈ q' ++ ns, x ∈ vis ++ ns := by
        intro x hx
        rw [List.mem_append] at hx ⊢
        rcases hx with hx | hx
        · exact Or.inl (hqv x (List.mem_cons_of_mem c hx))
        · exact Or.inr hx
      have h6' : ∀ x ∈ cells ++ [c], x ∈ vis ++ ns := by
        intro x hx
        rw [List.mem_append, List.mem_singleton] at hx
        rw [List.mem_append]
        rcases hx with hx | hx
        · exact Or.inl (hcv x hx)
        · subst hx; exact Or.inl hcvis
      have h7' : ∀ x ∈ q' ++ ns, x.1 < sw ∧ x.2 < sh ∧ occAt small x = true := by
        intro x hx
        rw [List.mem_append] at hx
        rcases hx with hx | hx
        · exact hqg x (List.mem_cons_of_mem c hx)
        · obtain ⟨h1, h2, _⟩ := hns_mem x hx
          obtain ⟨b1, b2, _⟩ := mem_neighborsOf.mp h1
          exact ⟨b1, b2, h2⟩
      have h8' : ∀ x ∈ cells ++ [c], x.1 < sw ∧ x.2 < sh ∧ occAt small x = true := by
        intro x hx
        rw [List.mem_append, List.mem_singleton] at hx
        rcases hx with hx | hx
        · exact hcg x hx
        · subst hx; exact hcgood
      have h9' : ∀ x ∈ cells ++ [c], ∀ n ∈ neighborsOf sw sh x,
          occAt small n = true → n ∈ vis ++ ns := by
        intro x hx n hn hocc
        rw [List.mem_append, List.mem_singleton] at hx
        rw [List.mem_append]
        rcases hx with hx | hx
        · exact Or.inl (hclosed x hx n hn hocc)
        · subst hx
          by_cases hv : n ∈ vis
          · exact Or.inl hv
          · exact Or.inr (mem_bfsFilter.mpr ⟨hn, hocc, hv⟩)
      obtain ⟨ind, iff1, iff2, igood, iclosed⟩ :=
        ih (q' ++ ns) (vis ++ ns) (cells ++ [c]) hfuel' h2' h3' h4' h5' h6' h7' h8' h9'
      refine ⟨ind, ?_, ?_, igood, iclosed⟩
      · intro x
        rw [iff1 x]
        constructor
        · rintro (hx | hx | ⟨hx1, hx2⟩)
          · rw [List.mem_append, List.mem_singleton] at hx
            rcases hx with hx | hx
            · exact Or.inl hx
            · exact Or.inr (Or.inl (hx ▸ List.mem_cons_self c q'))
          · rw [List.mem_append] at hx
            rcases hx with hx | hx
            · exact Or.inr (Or.inl (List.mem_cons_of_mem c hx))
            · refine Or.inr (Or.inr ⟨?_, (hns_mem x hx).2.2⟩)
              exact (iff2 x).mpr (Or.inl (List.mem_append.mpr (Or.inr hx)))
          · refine Or.inr (Or.inr ⟨hx1, fun hv => hx2 (List.mem_append.mpr (Or.inl hv))⟩)
        · rintro (hx | hx | ⟨hx1, hx2⟩)
          · exact Or.inl (List.mem_append.mpr (Or.inl hx))
          · rw [List.mem_cons] at hx
            rcases hx with hx | hx
            · exact Or.inl (List.mem_append.mpr (Or.inr (List.mem_singleton.mpr hx)))
            · exact Or.inr (Or.inl (List.mem_append.mpr (Or.inl hx)))
          · by_cases hn : x ∈ ns
            · exact Or.inr (Or.inl (List.mem_append.mpr (Or.inr hn)))
            · refine Or.inr (Or.inr ⟨hx1, fun hm => ?_⟩)
              rw [List.mem_append] at hm
              rcases hm with hm | hm
              · exact hx2 hm
              · exact hn hm
      · intro x
        rw [iff2 x]
        constructor
        · rintro (hx | hx)
          · rw [List.mem_append] at hx
            rcases hx with hx | hx
            · exact Or.inl hx
            · refine Or.inr ((iff1 x).mpr (Or.inr (Or.inl ?_)))
              exact List.mem_append.mpr (Or.inr hx)
          · exact Or.inr hx
        · rintro (hx | hx)
          · exact Or.inl (List.mem_append.mpr (Or.inl hx))
          · exact Or.inr hx

/-- The BFS result extends the accumulators. -/
theorem bfsLoop_shape (small : List (List Bool)) (sw sh : Nat) :
    ∀ (fuel : Nat) (q vis cells : List Cell),
    ∃ t r, (bfsLoop small sw sh fuel q vis cells).1 = cells ++ t ∧
      (bfsLoop small sw sh fuel q vis cells).2 = vis ++ r := by
  intro fuel
  induction fuel with
  | zero =>
    intro q vis cells
    match q with
    | [] => exact ⟨[], [], by rw [bfsLoop_nil]; simp, by rw [bfsLoop_nil]; simp⟩
    | c :: q' => exact ⟨[], [], by simp [bfsLoop], by simp [bfsLoop]⟩
  | succ fuel ih =>
    intro q vis cells
    match q with
    | [] => exact ⟨[], [], by rw [bfsLoop_nil]; simp, by rw [bfsLoop_nil]; simp⟩
    | c :: q' =>
      rw [bfsLoop_cons]
      obtain ⟨t, r, h1, h2⟩ := ih
        (q' ++ (neighborsOf sw sh c).filter fun n => occAt small n && !vis.contains n)
        (vis ++ (neighborsOf sw sh c).filter fun n => occAt small n && !vis.contains n)
        (cells ++ [c])
      exact ⟨[c] ++ t,
        ((neighborsOf sw sh c).filter fun n => occAt small n && !vis.contains n) ++ r,
        by rw [h1, List.append_assoc], by rw [h2, List.append_assoc]⟩

/-- Every property that holds on the queue and accumulated cells and is closed
under stepping to an occupied neighbor holds on every cell of the BFS result. -/
theorem bfsLoop_sound (small : List (List Bool)) (sw sh : Nat) (R : Cell → Prop)
    (hstep : ∀ a n, R a → n ∈ neighborsOf sw sh a → occAt small n = true → R n) :
    ∀ (fuel : Nat) (q vis cells : List Cell),
    (∀ x ∈ q, R x) → (∀ x ∈ cells, R x) →
    ∀ x ∈ (bfsLoop small sw sh fuel q vis cells).1, R x := by
  intro fuel
  induction fuel with
  | zero =>
    intro q vis cells hq hc
    match q with
    | [] => rw [bfsLoop_nil]; exact hc
    | c :: q' => simpa [bfsLoop] using hc
  | succ fuel ih =>
    intro q vis cells hq hc
    match q with
    | [] => rw [bfsLoop_nil]; exact hc
    | c :: q' =>
      rw [bfsLoop_cons]
      apply ih
      · intro x hx
        rw [List.mem_append] at hx
        rcases hx with hx | hx
        · exact hq x (List.mem_cons_of_mem c hx)
        · obtain ⟨hn, hocc, _⟩ := mem_bfsFilter.mp hx
          exact hstep c x (hq c (List.mem_cons_self c q')) hn hocc
      · intro x hx
        rw [List.mem_append, List.mem_singleton] at hx
        rcases hx with hx | hx
        · exact hc x hx
        · exact hx ▸ hq c (List.mem_cons_self c q')

/-! Section: Row-major enumeration -/

theorem rowMajor_succ (sw sh : Nat) :
    rowMajor sw (sh + 1) = rowMajor sw sh ++ ((List.range sw).map fun x => (x, sh)) := by
  rw [rowMajor, rowMajor, List.range_succ, List.flatMap_append]
  simp

theorem mem_rowMajor {sw sh : Nat} {c : Cell} :
    c ∈ rowMajor sw sh ↔ c.1 < sw ∧ c.2 < sh := by
  rw [rowMajor, List.mem_flatMap]
  constructor
  · rintro ⟨y, hy, hc⟩
    rw [List.mem_range] at hy
    rw [List.mem_map] at hc
    obtain ⟨x, hx, rfl⟩ := hc
    rw [List.mem_range] at hx
    exact ⟨hx, hy⟩
  · rintro ⟨h1, h2⟩
    exact ⟨c.2, List.mem_range.mpr h2, List.mem_map.mpr ⟨c.1, List.mem_range.mpr h1, rfl⟩⟩

theorem rowMajor_pairwise (sw sh : Nat) : (rowMajor sw sh).Pairwise rmLt := by
  induction sh with
  | zero => simp [rowMajor]
  | succ sh ih =>
    rw [rowMajor_succ, List.pairwise_append]
    refine ⟨ih, ?_, ?_⟩
    · exact List.Pairwise.map _ (fun a b hab => Or.inr ⟨rfl, hab⟩) (List.pairwise_lt_range sw)
    · intro a ha b hb
      rw [mem_rowMajor] at ha
      rw [List.mem_map] at hb
      obtain ⟨x, _, rfl⟩ := hb
      exact Or.inl ha.2

theorem rmLe_refl (a : Cell) : rmLe a a := Or.inr ⟨rfl, le_refl _⟩

theorem rmLt_rmLe {a b : Cell} (h : rmLt a b) : rmLe a b := by
  rcases h with h | ⟨h1, h2⟩
  · exact Or.inl h
  · exact Or.inr ⟨h1, le_of_lt h2⟩

/-- One step of 8-connected reachability through occupied cells. -/
def stepRel (small : List (List Bool)) (sw sh : Nat) (a b : Cell) : Prop :=
  b ∈ neighborsOf sw sh a ∧ occAt small b = true

theorem seedOf_cons (c : Cell) (t : List Cell) : seedOf (c :: t) = c := rfl

/-! Section: Outer scan equations -/

theorem floodOuter_nil (small : List (List Bool)) (sw sh : Nat)
    (vis : List Cell) (comps : List (List Cell)) :
    floodOuter small sw sh [] vis comps = (comps, vis) := rfl

theorem floodOuter_cons (small : List (List Bool)) (sw sh : Nat) (c : Cell)
    (rest vis : List Cell) (comps : List (List Cell)) :
    floodOuter small sw sh (c :: rest) vis comps =
      if occAt small c && !vis.contains c then
        floodOuter small sw sh rest
          (bfsLoop small sw sh (sw * sh + 1) [c] (vis ++ [c]) []).2
          (comps ++ [(bfsLoop small sw sh (sw * sh + 1) [c] (vis ++ [c]) []).1])
      else floodOuter small sw sh rest vis comps := rfl

/-! Section: Outer scan master invariant -/

theorem floodOuter_spec (small : List (List Bool)) (sw sh : Nat) :
    ∀ (rest vis : List Cell) (comps : List (List Cell)),
    (∀ d : Cell, d.1 < sw → d.2 < sh → occAt small d = true → d ∉ vis → d ∈ rest) →
    (∀ x : Cell, x ∈ vis ↔ ∃ K ∈ comps, x ∈ K) →
    (∀ K ∈ comps, ∀ x ∈ K, x.1 < sw ∧ x.2 < sh ∧ occAt small x = true) →
    (∀ K ∈ comps, K.Nodup) →
    comps.Pairwise (fun K K2 => ∀ x, x ∈ K → x ∉ K2) →
    (∀ K ∈ comps, ∀ x ∈ K, ∀ n ∈ neighborsOf sw sh x, occAt small n = true → n ∈ K) →
    (∀ K ∈ comps, ∃ s t, K = s :: t ∧
      ∀ x ∈ K, Relation.ReflTransGen (stepRel small sw sh) s x) →
    rest.Pairwise rmLt →
    (∀ d ∈ rest, d.1 < sw ∧ d.2 < sh) →
    (∀ K ∈ comps, ∀ d ∈ rest, rmLt (seedOf K) d) →
    (comps.map seedOf).Pairwise rmLt →
    (∀ K ∈ comps, ∀ x ∈ K, rmLe (seedOf K) x) →
    (∀ d : Cell, d.1 < sw → d.2 < sh → occAt small d = true →
      ∃ K ∈ (floodOuter small sw sh rest vis comps).1, d ∈ K) ∧
    (∀ K ∈ (floodOuter small sw sh rest vis comps).1, ∀ x ∈ K,
      x.1 < sw ∧ x.2 < sh ∧ occAt small x = true) ∧
    (∀ K ∈ (floodOuter small sw sh rest vis comps).1, K.Nodup) ∧
    (floodOuter small sw sh rest vis comps).1.Pairwise (fun K K2 => ∀ x, x ∈ K → x ∉ K2) ∧
    (∀ K ∈ (floodOuter small sw sh rest vis comps).1, ∀ x ∈ K,
      ∀ n ∈ neighborsOf sw sh x, occAt small n = true → n ∈ K) ∧
    (∀ K ∈ (floodOuter small sw sh rest vis comps).1, ∃ s t, K = s :: t ∧
      ∀ x ∈ K, Relation.ReflTransGen (stepRel small sw sh) s x) ∧
    ((floodOuter small sw sh rest vis comps).1.map seedOf).Pairwise rmLt ∧
    (∀ K ∈ (floodOuter small sw sh rest vis comps).1, ∀ x ∈ K, rmLe (seedOf K) x) := by
  intro rest
  induction rest with
  | nil =>
    intro vis comps hcov hvis hgood hnd hdisj hclosed hconn hsort hbnd hseedlt hseeds hseedmin
    rw [floodOuter_nil]
    refine ⟨?_, hgood, hnd, hdisj, hclosed, hconn, hseeds, hseedmin⟩
    intro d h1 h2 h3
    have hd : d ∈ vis := by
      by_contra hd
      exact absurd (hcov d h1 h2 h3 hd) (List.not_mem_nil d)
    exact (hvis d).mp hd
  | cons c rest ih =>
    intro vis comps hcov hvis hgood hnd hdisj hclosed hconn hsort hbnd hseedlt hseeds hseedmin
    rw [floodOuter_cons]
    by_cases hg : occAt small c = true ∧ c ∉ vis
    · obtain ⟨hocc, hcnv⟩ := hg
      rw [if_pos (by simp [hocc, hcnv])]
      -- the BFS call
      have hcb : c.1 < sw ∧ c.2 < sh := hbnd c (List.mem_cons_self c rest)
      have hfuel : [c].length + slack sw sh (vis ++ [c]) ≤ sw * sh + 1 := by
        have := slack_le sw sh (vis ++ [c])
        simp only [List.length_singleton]
        omega
      obtain ⟨Knd, kiff, viff, kgood, kclosed⟩ :=
        bfsLoop_spec small sw sh (sw * sh + 1) [c] (vis ++ [c]) [] hfuel
          (List.nodup_singleton c) List.nodup_nil
          (fun x _ => List.not_mem_nil x)
          (fun x hx => List.mem_append.mpr (Or.inr hx))
          (fun x hx => absurd hx (List.not_mem_nil x))
          (fun x hx => by
            rw [List.mem_singleton] at hx
            subst hx
            exact ⟨hcb.1, hcb.2, hocc⟩)
          (fun x hx => absurd hx (List.not_mem_nil x))
          (fun x hx => absurd hx (List.not_mem_nil x))
      set K := (bfsLoop small sw sh (sw * sh + 1) [c] (vis ++ [c]) []).1 with hK_def
      set vis2 := (bfsLoop small sw sh (sw * sh + 1) [c] (vis ++ [c]) []).2 with hvis2_def
      have hcK : c ∈ K := (kiff c).mpr (Or.inr (Or.inl (List.mem_singleton.mpr rfl)))
      have hKnew : ∀ x ∈ K, x = c ∨ x ∉ vis := by
        intro x hx
        rcases (kiff x).mp hx with hx | hx | ⟨_, hx2⟩
        · exact absurd hx (List.not_mem_nil x)
        · exact Or.inl (List.mem_singleton.mp hx)
        · exact Or.inr fun hv => hx2 (List.mem_append.mpr (Or.inl hv))
      have hKold : ∀ x ∈ K, ∀ K2 ∈ comps, x ∉ K2 := by
        intro x hx K2 hK2 hxK2
        have hxv : x ∈ vis := (hvis x).mpr ⟨K2, hK2, hxK2⟩
        rcases hKnew x hx with rfl | hnv
        · exact hcnv hxv
        · exact hnv hxv
      have hvis2iff : ∀ x, x ∈ vis2 ↔ x ∈ vis ∨ x ∈ K := by
        intro x
        rw [viff x]
        constructor
        · rintro (hx | hx)
          · rcases List.mem_append.mp hx with hx | hx
            · exact Or.inl hx
            · exact Or.inr ((List.mem_singleton.mp hx) ▸ hcK)
          · exact Or.inr hx
        · rintro (hx | hx)
          · exact Or.inl (List.mem_append.mpr (Or.inl hx))
          · exact Or.inr hx
      have hKshape : ∃ t, K = c :: t := by
        rw [hK_def, bfsLoop_cons]
        obtain ⟨t, r, h1, _⟩ := bfsLoop_shape small sw sh (sw * sh)
          ([] ++ (neighborsOf sw sh c).filter
            (fun n => occAt small n && !(vis ++ [c]).contains n))
          ((vis ++ [c]) ++ (neighborsOf sw sh c).filter
            (fun n => occAt small n && !(vis ++ [c]).contains n))
          ([] ++ [c])
        refine ⟨t, ?_⟩
        rw [h1]
        simp
      have hKconn : ∀ x ∈ K, Relation.ReflTransGen (stepRel small sw sh) c x :=
        bfsLoop_sound small sw sh (Relation.ReflTransGen (stepRel small sw sh) c)
          (fun a n ha hn hocc2 => Relation.ReflTransGen.tail ha ⟨hn, hocc2⟩)
          (sw * sh + 1) [c] (vis ++ [c]) []
          (fun x hx => by
            rw [List.mem_singleton] at hx
            subst hx
            exact Relation.ReflTransGen.refl)
          (fun x hx => absurd hx (List.not_mem_nil x))
      have hrestlt : ∀ d ∈ rest, rmLt c d := by
        intro d hd
        exact (List.pairwise_cons.mp hsort).1 d hd
      have hKmin : ∀ x ∈ K, rmLe c x := by
        intro x hx
        rcases hKnew x hx with rfl | hnv
        · exact rmLe_refl x
        · obtain ⟨b1, b2, b3⟩ := kgood x hx
          have : x ∈ c :: rest := hcov x b1 b2 b3 hnv
          rcases List.mem_cons.mp this with rfl | hxr
          · exact rmLe_refl x
          · exact rmLt_rmLe (hrestlt x hxr)
      have hKclosedK : ∀ x ∈ K, ∀ n ∈ neighborsOf sw sh x, occAt small n = true → n ∈ K := by
        intro x hx n hn hocc2
        have hnv2 : n ∈ vis2 := kclosed x hx n hn hocc2
        rcases (hvis2iff n).mp hnv2 with hnv | hnK
        · exfalso
          obtain ⟨K2, hK2, hnK2⟩ := (hvis n).mp hnv
          have hxnb : x ∈ neighborsOf sw sh n :=
            neighborsOf_symm hn (kgood x hx).1 (kgood x hx).2.1
          have hxK2 : x ∈ K2 := hclosed K2 hK2 n hnK2 x hxnb (kgood x hx).2.2
          exact hKold x hx K2 hK2 hxK2
        · exact hnK
      have hseedK : seedOf K = c := by
        obtain ⟨t, ht⟩ := hKshape
        rw [ht, seedOf_cons]
      -- apply the induction hypothesis
      apply ih vis2 (comps ++ [K])
      · intro d h1 h2 h3 hd
        have hdv : d ∉ vis := fun hv => hd ((hvis2iff d).mpr (Or.inl hv))
        have hdK : d ≠ c := fun he => hd ((hvis2iff d).mpr (Or.inr (he ▸ hcK)))
        rcases List.mem_cons.mp (hcov d h1 h2 h3 hdv) with he | hr
        · exact absurd he hdK
        · exact hr
      · intro x
        rw [hvis2iff x, hvis x]
        constructor
        · rintro (⟨K2, hK2, hx⟩ | hx)
          · exact ⟨K2, List.mem_append.mpr (Or.inl hK2), hx⟩
          · exact ⟨K, List.mem_append.mpr (Or.inr (List.mem_singleton.mpr rfl)), hx⟩
        · rintro ⟨K2, hK2, hx⟩
          rcases List.mem_append.mp hK2 with h | h
          · exact Or.inl ⟨K2, h, hx⟩
          · exact Or.inr ((List.mem_singleton.mp h) ▸ hx)
      · intro K2 hK2
        rcases List.mem_append.mp hK2 with h | h
        · exact hgood K2 h
        · exact (List.mem_singleton.mp h) ▸ kgood
      · intro K2 hK2
        rcases List.mem_append.mp hK2 with h | h
        · exact hnd K2 h
        · exact (List.mem_singleton.mp h) ▸ Knd
      · rw [List.pairwise_append]
        refine ⟨hdisj, List.pairwise_singleton _ _, ?_⟩
        intro K2 hK2 K3 hK3 x hx2
        rw [List.mem_singleton] at hK3
        subst hK3
        exact fun hx3 => hKold x hx3 K2 hK2 hx2
      · intro K2 hK2
        rcases List.mem_append.mp hK2 with h | h
        · exact hclosed K2 h
        · exact (List.mem_singleton.mp h) ▸ hKclosedK
      · intro K2 hK2
        rcases List.mem_append.mp hK2 with h | h
        · exact hconn K2 h
        · obtain ⟨t, ht⟩ := hKshape
          exact (List.mem_singleton.mp h) ▸ ⟨c, t, ht, hKconn⟩
      · exact (List.pairwise_cons.mp hsort).2
      · intro d hd
        exact hbnd d (List.mem_cons_of_mem c hd)
      · intro K2 hK2 d hd
        rcases List.mem_append.mp hK2 with h | h
        · exact hseedlt K2 h d (List.mem_cons_of_mem c hd)
        · rw [List.mem_singleton.mp h, hseedK]
          exact hrestlt d hd
      · rw [List.map_append, List.pairwise_append]
        refine ⟨hseeds, by simp, ?_⟩
        intro a ha b hb
        rw [List.mem_map] at ha
        obtain ⟨K2, hK2, rfl⟩ := ha
        simp only [List.map_cons, List.map_nil, List.mem_singleton] at hb
        subst hb
        rw [hseedK]
        exact hseedlt K2 hK2 c (List.mem_cons_self c rest)
      · intro K2 hK2
        rcases List.mem_append.mp hK2 with h | h
        · exact hseedmin K2 h
        · intro x hx
          rw [List.mem_singleton.mp h] at hx ⊢
          rw [hseedK]
          exact hKmin x hx
    · have hcond : ¬(occAt small c && !vis.contains c) = true := by
        intro hb
        rw [Bool.and_eq_true] at hb
        apply hg
        refine ⟨hb.1, fun hm => ?_⟩
        have h2 := hb.2
        have h3 : vis.contains c = true := by simp [hm]
        rw [h3] at h2
        simp at h2
      rw [if_neg hcond]
      apply ih vis comps
      · intro d h1 h2 h3 hd
        rcases List.mem_cons.mp (hcov d h1 h2 h3 hd) with he | hr
        · exfalso
          subst he
          rcases not_and_or.mp hg with h | h
          · exact h h3
          · exact hd (not_not.mp h)
        · exact hr
      · exact hvis
      · exact hgood
      · exact hnd
      · exact hdisj
      · exact hclosed
      · exact hconn
      · exact (List.pairwise_cons.mp hsort).2
      · intro d hd
        exact hbnd d (List.mem_cons_of_mem c hd)
      · intro K2 hK2 d hd
        exact hseedlt K2 hK2 d (List.mem_cons_of_mem c hd)
      · exact hseeds
      · exact hseedmin

/-! Section: Flood fill: assembled properties -/

theorem flood_spec (small : List (List Bool)) :
    (∀ d : Cell, d.1 < gridW small → d.2 < gridH small → occAt small d = true →
      ∃ K ∈ flood_components_8 small, d ∈ K) ∧
    (∀ K ∈ flood_components_8 small, ∀ x ∈ K,
      x.1 < gridW small ∧ x.2 < gridH small ∧ occAt small x = true) ∧
    (∀ K ∈ flood_components_8 small, K.Nodup) ∧
    (flood_components_8 small).Pairwise (fun K K2 => ∀ x, x ∈ K → x ∉ K2) ∧
    (∀ K ∈ flood_components_8 small, ∀ x ∈ K,
      ∀ n ∈ neighborsOf (gridW small) (gridH small) x, occAt small n = true → n ∈ K) ∧
    (∀ K ∈ flood_components_8 small, ∃ s t, K = s :: t ∧
      ∀ x ∈ K, Relation.ReflTransGen (stepRel small (gridW small) (gridH small)) s x) ∧
    ((flood_components_8 small).map seedOf).Pairwise rmLt ∧
    (∀ K ∈ flood_components_8 small, ∀ x ∈ K, rmLe (seedOf K) x) :=
  floodOuter_spec small (gridW small) (gridH small)
    (rowMajor (gridW small) (gridH small)) [] []
    (fun _ h1 h2 _ _ => mem_rowMajor.mpr ⟨h1, h2⟩)
    (by simp) (by simp) (by simp) (by simp) (by simp) (by simp)
    (rowMajor_pairwise _ _)
    (fun _ hd => mem_rowMajor.mp hd)
    (by simp) (by simp) (by simp)

theorem flood_mem_iff {small : List (List Bool)} (hwf : WFgrid small) (c : Cell) :
    (∃ K ∈ flood_components_8 small, c ∈ K) ↔ occAt small c = true := by
  constructor
  · rintro ⟨K, hK, hc⟩
    exact ((flood_spec small).2.1 K hK c hc).2.2
  · intro h
    obtain ⟨h1, h2⟩ := occAt_bounds hwf h
    exact (flood_spec small).1 c h1 h2 h

theorem countP_eq_one_of_pairwise {comps : List (List Cell)}
    (hdisj : comps.Pairwise (fun K K2 => ∀ x, x ∈ K → x ∉ K2)) {c : Cell}
    (h : ∃ K ∈ comps, c ∈ K) :
    comps.countP (fun K => decide (c ∈ K)) = 1 := by
  induction comps with
  | nil =>
    obtain ⟨K, hK, _⟩ := h
    exact absurd hK (List.not_mem_nil K)
  | cons K0 rest ih =>
    rw [List.countP_cons]
    obtain ⟨hd0, hdrest⟩ := List.pairwise_cons.mp hdisj
    by_cases hc : c ∈ K0
    · have hz : rest.countP (fun K => decide (c ∈ K)) = 0 := by
        rw [List.countP_eq_zero]
        intro K2 hK2
        simp only [decide_eq_true_eq]
        exact hd0 K2 hK2 c hc
      simp [hz, hc]
    · obtain ⟨K, hK, hcK⟩ := h
      rcases List.mem_cons.mp hK with rfl | hKrest
      · exact absurd hcK hc
      · have := ih hdrest ⟨K, hKrest, hcK⟩
        simp [this, hc]

theorem index_unique_of_pairwise {comps : List (List Cell)}
    (hdisj : comps.Pairwise (fun K K2 => ∀ x, x ∈ K → x ∉ K2)) {b : Cell}
    {i j : Nat} (hi : i < comps.length) (hj : j < comps.length)
    (hbi : b ∈ comps.get ⟨i, hi⟩) (hbj : b ∈ comps.get ⟨j, hj⟩) : i = j := by
  by_contra hne
  rcases Nat.lt_or_ge i j with h | h
  · exact List.pairwise_iff_get.mp hdisj ⟨i, hi⟩ ⟨j, hj⟩ h b hbi hbj
  · have h2 : j < i := by omega
    exact List.pairwise_iff_get.mp hdisj ⟨j, hj⟩ ⟨i, hi⟩ h2 b hbj hbi

theorem reach_occ {small : List (List Bool)} {sw sh : Nat} {s x : Cell}
    (hs : occAt small s = true)
    (h : Relation.ReflTransGen (stepRel small sw sh) s x) : occAt small x = true := by
  induction h with
  | refl => exact hs
  | tail _ hstep _ => exact hstep.2

/-! Section: Claim theorems: flood fill -/

/-- The Scenario A sheet: a 4×4 image with alpha whose only foreground pixels
are `(0,0)` and `(3,3)`. -/
def wImg4 : Img :=
  ⟨4, 4, fun x y => if (x = 0 ∧ y = 0) ∨ (x = 3 ∧ y = 3) then (9, 9, 9, 255)
    else (0, 0, 0, 0), true⟩

/-- Claim C2: for every coarse occupancy grid, the components returned by the flood
fill partition the occupied cells: every occupied cell lies in exactly one
returned component, membership in some component is equivalent to occupancy
(so the union of the components is the occupied set and no component holds an
unoccupied cell), and no cell repeats inside one component. -/
theorem flood_partitions_occupied (small : List (List Bool)) (hwf : WFgrid small) :
    (∀ c : Cell, occAt small c = true →
      (flood_components_8 small).countP (fun K => decide (c ∈ K)) = 1) ∧
    (∀ c : Cell, (∃ K ∈ flood_components_8 small, c ∈ K) ↔ occAt small c = true) ∧
    (∀ K ∈ flood_components_8 small, ∀ c ∈ K, occAt small c = true) ∧
    (∀ K ∈ flood_components_8 small, K.Nodup) := by
  refine ⟨?_, fun c => flood_mem_iff hwf c, ?_, (flood_spec small).2.2.1⟩
  · intro c hocc
    exact countP_eq_one_of_pairwise (flood_spec small).2.2.2.1
      ((flood_mem_iff hwf c).mpr hocc)
  · intro K hK c hc
    exact ((flood_spec small).2.1 K hK c hc).2.2

theorem flood_partitions_occupied_witness :
    WFgrid [[true, false], [false, true]] ∧
    occAt [[true, false], [false, true]] (0, 0) = true ∧
    (flood_components_8 [[true, false], [false, true]]).countP
      (fun K => decide ((0, 0) ∈ K)) = 1 :=
  ⟨by decide, by decide,
    (flood_partitions_occupied [[true, false], [false, true]] (by decide)).1
      (0, 0) (by decide)⟩

/-- Claim C3: two occupied cells at Chebyshev distance 1 (diagonals included) always
land in the same component; concretely, the 4×4 sheet with foreground pixels
`(0,0)` and `(3,3)` at tile 2 yields the 2×2 coarse grid with cells `(0,0)`
and `(1,1)` occupied and exactly one component containing both corners. -/
theorem flood_chebyshev_adjacent_same_component
    (small : List (List Bool)) (hwf : WFgrid small) (a b : Cell)
    (ha : occAt small a = true) (hb : occAt small b = true)
    (hadj : chebDist a b = 1) :
    (∀ (i j : Nat) (hi : i < (flood_components_8 small).length)
      (hj : j < (flood_components_8 small).length),
      a ∈ (flood_components_8 small).get ⟨i, hi⟩ →
      b ∈ (flood_components_8 small).get ⟨j, hj⟩ → i = j) ∧
    ((downscale_any (foreground_mask wImg4) 2).1 = [[true, false], [false, true]] ∧
      (downscale_any (foreground_mask wImg4) 2).2.1 = 2 ∧
      (downscale_any (foreground_mask wImg4) 2).2.2 = 2 ∧
      (flood_components_8 [[true, false], [false, true]]).length = 1 ∧
      (0, 0) ∈ (flood_components_8 [[true, false], [false, true]]).headD [] ∧
      (1, 1) ∈ (flood_components_8 [[true, false], [false, true]]).headD []) := by
  constructor
  · intro i j hi hj hai hbj
    have hKi := List.get_mem (flood_components_8 small) i hi
    have hspec := flood_spec small
    obtain ⟨bb1, bb2⟩ := occAt_bounds hwf hb
    have hbnbr : b ∈ neighborsOf (gridW small) (gridH small) a :=
      mem_neighborsOf.mpr ⟨bb1, bb2, hadj⟩
    have hbKi : b ∈ (flood_components_8 small).get ⟨i, hi⟩ :=
      hspec.2.2.2.2.1 _ hKi a hai b hbnbr hb
    exact index_unique_of_pairwise hspec.2.2.2.1 hi hj hbKi hbj
  · exact ⟨by decide, by decide, by decide, by decide, by decide, by decide⟩

theorem flood_chebyshev_adjacent_witness :
    WFgrid [[true, false], [false, true]] ∧
    occAt [[true, false], [false, true]] (0, 0) = true ∧
    occAt [[true, false], [false, true]] (1, 1) = true ∧
    chebDist (0, 0) (1, 1) = 1 ∧
    (flood_components_8 [[true, false], [false, true]]).length = 1 :=
  ⟨by decide, by decide, by decide, by decide,
    (flood_chebyshev_adjacent_same_component [[true, false], [false, true]]
      (by decide) (0, 0) (1, 1) (by decide) (by decide) (by decide)).2.2.2.2.1⟩

/-- Claim C6: components are appended in the row-major order of their seeds: every
component's cell list starts with its row-major-least (top-most then
left-most) cell, and those seeds are strictly increasing in row-major order
along the returned list; an isolated occupied cell (no occupied cell at
Chebyshev distance 1) yields the one-cell component `[c]`. -/
theorem flood_discovery_order_spec (small : List (List Bool)) (hwf : WFgrid small) :
    (∀ K ∈ flood_components_8 small, ∃ s t, K = s :: t ∧ ∀ x ∈ K, rmLe s x) ∧
    ((flood_components_8 small).map seedOf).Pairwise rmLt ∧
    (∀ c : Cell, occAt small c = true →
      (∀ n : Cell, chebDist c n = 1 → occAt small n = false) →
      [c] ∈ flood_components_8 small) := by
  refine ⟨?_, (flood_spec small).2.2.2.2.2.2.1, ?_⟩
  · intro K hK
    obtain ⟨s, t, hshape, _⟩ := (flood_spec small).2.2.2.2.2.1 K hK
    refine ⟨s, t, hshape, ?_⟩
    intro x hx
    have := (flood_spec small).2.2.2.2.2.2.2 K hK x hx
    rwa [hshape, seedOf_cons] at this
  · intro c hocc hiso
    obtain ⟨h1, h2⟩ := occAt_bounds hwf hocc
    obtain ⟨K, hK, hcK⟩ := (flood_spec small).1 c h1 h2 hocc
    obtain ⟨s, t, hshape, hreach⟩ := (flood_spec small).2.2.2.2.2.1 K hK
    have hsK : s ∈ K := hshape ▸ List.mem_cons_self s t
    have hsocc : occAt small s = true := ((flood_spec small).2.1 K hK s hsK).2.2
    have hsc : s = c := by
      rcases (hreach c hcK).cases_tail with h | ⟨mid, hmid, hstep⟩
      · exact h.symm
      · exfalso
        have hmidocc : occAt small mid = true := reach_occ hsocc hmid
        obtain ⟨m1, m2⟩ := occAt_bounds hwf hmidocc
        have hmn : mid ∈ neighborsOf (gridW small) (gridH small) c :=
          neighborsOf_symm hstep.1 m1 m2
        have hcheb := (mem_neighborsOf.mp hmn).2.2
        exact absurd hmidocc (by simp [hiso mid hcheb])
    have hall : ∀ x ∈ K, x = c := by
      intro x hx
      rcases (hreach x hx).cases_head with h | ⟨n, hstep, _⟩
      · rw [← h, hsc]
      · exfalso
        rw [hsc] at hstep
        have hcheb := (mem_neighborsOf.mp hstep.1).2.2
        exact absurd hstep.2 (by simp [hiso n hcheb])
    have hKnodup := (flood_spec small).2.2.1 K hK
    have hKc : K = [c] := by
      rw [hshape, hsc] at hall hKnodup ⊢
      cases t with
      | nil => rfl
      | cons d t2 =>
        exfalso
        have hd : d = c := hall d (by simp)
        rw [List.nodup_cons] at hKnodup
        exact hKnodup.1 (by simp [hd])
    exact hKc ▸ hK

theorem flood_discovery_order_witness :
    WFgrid [[true]] ∧ occAt [[true]] (0, 0) = true ∧
    [(0, 0)] ∈ flood_components_8 [[true]] := by
  refine ⟨by decide, by decide, ?_⟩
  apply (flood_discovery_order_spec [[true]] (by decide)).2.2 (0, 0) (by decide)
  intro n hn
  rcases n with ⟨n1, n2⟩
  simp only [chebDist, natDist] at hn
  have h : (n1 = 1 ∧ n2 = 0) ∨ (n1 = 0 ∧ n2 = 1) ∨ (n1 = 1 ∧ n2 = 1) := by omega
  rcases h with ⟨rfl, rfl⟩ | ⟨rfl, rfl⟩ | ⟨rfl, rfl⟩ <;> decide

/-! Section: Claim theorem: downscaling -/

theorem getD_map_range {α : Type _} (f : Nat → α) (d : α) (n i : Nat) (h : i < n) :
    (((List.range n).map f).getD i d) = f i := by
  rw [List.getD_eq_getElem _ _ (by simpa using h), List.getElem_map, List.getElem_range]

/-- Claim C4: for a well-formed `w × h` mask and tile `t ≥ 1`, the coarse grid has
exactly `⌈w/t⌉` columns and `⌈h/t⌉` rows (the returned `sw, sh` equal those
counts and the nested list has those dimensions), and a coarse cell `(sx,sy)`
is true iff some mask pixel of its edge-clipped block
`[sx*t, min((sx+1)*t, w)) × [sy*t, min((sy+1)*t, h))` is true. -/
theorem downscale_any_spec (mask : List (List Bool)) (tile : Nat) (ht : 1 ≤ tile)
    (hwf : WFgrid mask) :
    (downscale_any mask tile).2.1 = gridW mask ⌈/⌉ tile ∧
    (downscale_any mask tile).2.2 = gridH mask ⌈/⌉ tile ∧
    (downscale_any mask tile).1.length = gridH mask ⌈/⌉ tile ∧
    (∀ row ∈ (downscale_any mask tile).1, row.length = gridW mask ⌈/⌉ tile) ∧
    (∀ sx sy : Nat, sx < gridW mask ⌈/⌉ tile → sy < gridH mask ⌈/⌉ tile →
      (occAt (downscale_any mask tile).1 (sx, sy) = true ↔
        ∃ x y : Nat, sx * tile ≤ x ∧ x < min ((sx + 1) * tile) (gridW mask) ∧
          sy * tile ≤ y ∧ y < min ((sy + 1) * tile) (gridH mask) ∧
          maskAt mask x y = true)) := by
  have hceW : gridW mask ⌈/⌉ tile = (gridW mask + tile - 1) / tile :=
    Nat.ceilDiv_eq_add_pred_div _ _
  have hceH : gridH mask ⌈/⌉ tile = (gridH mask + tile - 1) / tile :=
    Nat.ceilDiv_eq_add_pred_div _ _
  refine ⟨by rw [hceW]; rfl, by rw [hceH]; rfl, ?_, ?_, ?_⟩
  · simp only [downscale_any, List.length_map, List.length_range]
    rw [hceH]
  · intro row hrow
    simp only [downscale_any, List.mem_map] at hrow
    obtain ⟨sy, _, rfl⟩ := hrow
    simp only [List.length_map, List.length_range]
    rw [hceW]
  · intro sx sy hsx hsy
    rw [hceW] at hsx
    rw [hceH] at hsy
    have hcell : occAt (downscale_any mask tile).1 (sx, sy) =
        ((List.range' (sy * tile) (min ((sy + 1) * tile) (gridH mask) - sy * tile)).any
          fun y =>
            (List.range' (sx * tile) (min ((sx + 1) * tile) (gridW mask) - sx * tile)).any
              fun x => maskAt mask x y) := by
      rw [occAt]
      simp only [downscale_any]
      rw [getD_map_range _ _ _ _ hsy, getD_map_range _ _ _ _ hsx]
    rw [hcell, List.any_eq_true]
    constructor
    · rintro ⟨y, hy, hxany⟩
      rw [List.mem_range'_1] at hy
      rw [List.any_eq_true] at hxany
      obtain ⟨x, hx, hmx⟩ := hxany
      rw [List.mem_range'_1] at hx
      exact ⟨x, y, by omega, by omega, by omega, by omega, hmx⟩
    · rintro ⟨x, y, h1, h2, h3, h4, hm⟩
      refine ⟨y, List.mem_range'_1.mpr ⟨h3, by omega⟩, List.any_eq_true.mpr
        ⟨x, List.mem_range'_1.mpr ⟨h1, by omega⟩, hm⟩⟩

theorem downscale_any_witness :
    1 ≤ 2 ∧ WFgrid [[true, false, true], [false, false, false]] ∧
    (downscale_any [[true, false, true], [false, false, false]] 2).2.1 = 2 :=
  ⟨by decide, by decide, by
    rw [(downscale_any_spec [[true, false, true], [false, false, false]] 2
      (by decide) (by decide)).1]
    decide⟩

/-! Section: Claim theorem: sorting -/

theorem tupLe_total (p q : Nat × Nat × Nat × Nat) : (tupLe p q || tupLe q p) = true := by
  simp only [tupLe, Bool.or_eq_true, decide_eq_true_eq]
  omega

theorem tupLe_trans {p q r : Nat × Nat × Nat × Nat} (h1 : tupLe p q = true)
    (h2 : tupLe q r = true) : tupLe p r = true := by
  simp only [tupLe, decide_eq_true_eq] at *
  omega

/-- Claim C5: mode `none` returns the input order unchanged; `topleft` returns the
components with bounding-box tuples pairwise non-decreasing in lexicographic
order; `size` returns them with pairwise non-increasing cell counts and, the
sort being stable, the components of any fixed cell count in exactly their
input (discovery) order. -/
theorem sort_components_spec (comps : List (List Cell)) :
    (sort_components comps "none" = Except.ok comps) ∧
    (∃ out, sort_components comps "topleft" = Except.ok out ∧
      out.Pairwise (fun K K2 => tupLe (bbox_key K) (bbox_key K2) = true)) ∧
    (∃ out, sort_components comps "size" = Except.ok out ∧
      out.Pairwise (fun K K2 => K2.length ≤ K.length) ∧
      (∀ n : Nat, out.filter (fun K => decide (K.length = n)) =
        comps.filter (fun K => decide (K.length = n)))) := by
  refine ⟨rfl, ⟨_, rfl, ?_⟩, ⟨_, rfl, ?_, ?_⟩⟩
  · exact @List.sorted_mergeSort _ (fun a b => tupLe (bbox_key a) (bbox_key b))
      (fun a b c h1 h2 => tupLe_trans h1 h2)
      (fun a b => tupLe_total _ _) comps
  · have := @List.sorted_mergeSort _ (fun a b : List Cell => decide (b.length ≤ a.length))
      (fun a b c h1 h2 => by
        simp only [decide_eq_true_eq] at *
        omega)
      (fun a b => by
        simp only [Bool.or_eq_true, decide_eq_true_eq]
        omega) comps
    exact this.imp fun h => by simpa using h
  · intro n
    set le := fun a b : List Cell => decide (b.length ≤ a.length) with hle
    set p := fun K : List Cell => decide (K.length = n) with hp
    have hsubl : (comps.filter p).Sublist comps := List.filter_sublist comps
    have hpw : (comps.filter p).Pairwise (fun a b => le a b = true) := by
      apply List.pairwise_of_forall_mem_list
      intro a ha b hb
      have ha2 := List.of_mem_filter ha
      have hb2 := List.of_mem_filter hb
      simp only [hp, decide_eq_true_eq] at ha2 hb2
      simp only [hle, decide_eq_true_eq]
      omega
    have hstable : (comps.filter p).Sublist (comps.mergeSort le) :=
      List.sublist_mergeSort
        (fun a b c h1 h2 => by
          simp only [hle, decide_eq_true_eq] at *
          omega)
        (fun a b => by
          simp only [hle, Bool.or_eq_true, decide_eq_true_eq]
          omega)
        hpw hsubl
    have hsub2 : (comps.filter p).Sublist ((comps.mergeSort le).filter p) := by
      have := List.Sublist.filter p hstable
      rwa [List.filter_eq_self.mpr (fun a ha => List.mem_filter.mp ha |>.2)] at this
    have hperm : ((comps.mergeSort le).filter p).Perm (comps.filter p) :=
      (List.mergeSort_perm comps le).filter p
    exact (List.Sublist.eq_of_length hsub2 hperm.length_eq.symm).symm

/-! Section: Mask and coarse-grid well-formedness -/

theorem foreground_mask_length (img : Img) : (foreground_mask img).length = img.h := by
  rw [foreground_mask]
  split <;> simp

theorem foreground_mask_rows (img : Img) :
    ∀ row ∈ foreground_mask img, row.length = img.w := by
  rw [foreground_mask]
  split <;>
    (intro row hrow
     simp only [List.mem_map] at hrow
     obtain ⟨y, _, rfl⟩ := hrow
     simp)

theorem gridH_foreground_mask (img : Img) : gridH (foreground_mask img) = img.h :=
  foreground_mask_length img

theorem gridW_foreground_mask (img : Img) (hh : 0 < img.h) :
    gridW (foreground_mask img) = img.w := by
  rw [gridW]
  cases hm : foreground_mask img with
  | nil =>
    have := foreground_mask_length img
    rw [hm] at this
    simp at this
    omega
  | cons r t =>
    have hr : r ∈ foreground_mask img := by
      rw [hm]
      exact List.mem_cons_self r t
    simpa using foreground_mask_rows img r hr

theorem foreground_mask_wf (img : Img) : WFgrid (foreground_mask img) := by
  intro row hrow
  have hh : 0 < img.h := by
    rw [← foreground_mask_length img]
    exact List.length_pos.mpr (List.ne_nil_of_mem hrow)
  rw [gridW_foreground_mask img hh]
  exact foreground_mask_rows img row hrow

theorem maskAt_foreground {img : Img} {x y : Nat} (hx : x < img.w) (hy : y < img.h) :
    maskAt (foreground_mask img) x y =
      (if img.hasAlpha then decide (0 < alphaOf (img.px x y))
        else decide (rgbOf (img.px x y) ≠ most_common_rgb img)) := by
  rw [maskAt, foreground_mask]
  split <;> rw [getD_map_range _ _ _ _ hy, getD_map_range _ _ _ _ hx]

theorem downscale_length (mask : List (List Bool)) (tile : Nat) :
    (downscale_any mask tile).1.length = (gridH mask + tile - 1) / tile := by
  simp [downscale_any]

theorem downscale_rows (mask : List (List Bool)) (tile : Nat) :
    ∀ row ∈ (downscale_any mask tile).1,
      row.length = (gridW mask + tile - 1) / tile := by
  intro row hrow
  simp only [downscale_any, List.mem_map] at hrow
  obtain ⟨sy, _, rfl⟩ := hrow
  simp

theorem downscale_gridH (mask : List (List Bool)) (tile : Nat) :
    gridH (downscale_any mask tile).1 = (gridH mask + tile - 1) / tile :=
  downscale_length mask tile

theorem downscale_gridW (mask : List (List Bool)) (tile : Nat)
    (h : 0 < (gridH mask + tile - 1) / tile) :
    gridW (downscale_any mask tile).1 = (gridW mask + tile - 1) / tile := by
  rw [gridW]
  cases hm : (downscale_any mask tile).1 with
  | nil =>
    have := downscale_length mask tile
    rw [hm] at this
    simp at this
    omega
  | cons r t =>
    have hr : r ∈ (downscale_any mask tile).1 := by
      rw [hm]
      exact List.mem_cons_self r t
    simpa using downscale_rows mask tile r hr

theorem downscale_wf (mask : List (List Bool)) (tile : Nat) :
    WFgrid (downscale_any mask tile).1 := by
  intro row hrow
  have h : 0 < (gridH mask + tile - 1) / tile := by
    rw [← downscale_length mask tile]
    exact List.length_pos.mpr (List.ne_nil_of_mem hrow)
  rw [downscale_gridW mask tile h]
  exact downscale_rows mask tile row hrow

/-! Section: Python min and max of a nonempty list -/

theorem foldl_min_spec (xs : List Nat) (x : Nat) :
    xs.foldl min x ≤ x ∧ ∀ a ∈ xs, xs.foldl min x ≤ a := by
  induction xs generalizing x with
  | nil => simp
  | cons b xs ih =>
    rw [List.foldl_cons]
    obtain ⟨h1, h2⟩ := ih (min x b)
    refine ⟨le_trans h1 (by omega), ?_⟩
    intro a ha
    rcases List.mem_cons.mp ha with rfl | ha
    · exact le_trans h1 (by omega)
    · exact h2 a ha

theorem foldl_max_spec (xs : List Nat) (x : Nat) :
    x ≤ xs.foldl max x ∧ ∀ a ∈ xs, a ≤ xs.foldl max x := by
  induction xs generalizing x with
  | nil => simp
  | cons b xs ih =>
    rw [List.foldl_cons]
    obtain ⟨h1, h2⟩ := ih (max x b)
    refine ⟨le_trans (by omega) h1, ?_⟩
    intro a ha
    rcases List.mem_cons.mp ha with rfl | ha
    · exact le_trans (by omega) h1
    · exact h2 a ha

theorem listMinD_le {l : List Nat} {a : Nat} (h : a ∈ l) : listMinD l ≤ a := by
  cases l with
  | nil => cases h
  | cons x xs =>
    rw [listMinD]
    rcases List.mem_cons.mp h with rfl | h
    · exact (foldl_min_spec xs a).1
    · exact (foldl_min_spec xs x).2 a h

theorem le_listMaxD {l : List Nat} {a : Nat} (h : a ∈ l) : a ≤ listMaxD l := by
  cases l with
  | nil => cases h
  | cons x xs =>
    rw [listMaxD]
    rcases List.mem_cons.mp h with rfl | h
    · exact (foldl_max_spec xs a).1
    · exact (foldl_max_spec xs x).2 a h

theorem listMaxD_lt {l : List Nat} {b : Nat} (hne : l ≠ []) (h : ∀ a ∈ l, a < b) :
    listMaxD l < b := by
  cases l with
  | nil => exact absurd rfl hne
  | cons x xs =>
    rw [listMaxD]
    induction xs generalizing x with
    | nil => exact h x (List.mem_cons_self x [])
    | cons c xs ih =>
      rw [List.foldl_cons]
      apply ih (max x c)
      · intro hne2
        exact List.noConfusion hne2
      · intro a ha
        rcases List.mem_cons.mp ha with rfl | ha
        · have h1 := h x (List.mem_cons_self x (c :: xs))
          have h2 := h c (List.mem_cons_of_mem x (List.mem_cons_self c xs))
          omega
        · exact h a (List.mem_cons_of_mem x (List.mem_cons_of_mem c ha))

/-! Section: Crop-box arithmetic -/

theorem mul_lt_of_lt_ceil {a w t : Nat} (ht : 1 ≤ t) (h : a < (w + t - 1) / t) :
    a * t < w := by
  have h3 : (a + 1) * t ≤ w + t - 1 := (Nat.le_div_iff_mul_le (by omega)).mp h
  have h4 : (a + 1) * t = a * t + t := by ring
  omega

/-- The pixel-space crop box of a component whose cells lie inside the coarse
grid is a nonempty rectangle inside the image. -/
theorem cropBox_bounds {w h tile : Nat} (ht : 1 ≤ tile) {K : List Cell} (hne : K ≠ [])
    (hcells : ∀ c ∈ K, c.1 < (w + tile - 1) / tile ∧ c.2 < (h + tile - 1) / tile) :
    listMinD (K.map Prod.fst) * tile < min ((listMaxD (K.map Prod.fst) + 1) * tile) w ∧
    min ((listMaxD (K.map Prod.fst) + 1) * tile) w ≤ w ∧
    listMinD (K.map Prod.snd) * tile < min ((listMaxD (K.map Prod.snd) + 1) * tile) h ∧
    min ((listMaxD (K.map Prod.snd) + 1) * tile) h ≤ h := by
  obtain ⟨c0, hc0⟩ := List.exists_mem_of_ne_nil K hne
  have hxne : K.map Prod.fst ≠ [] := by
    intro hx
    rw [List.map_eq_nil_iff] at hx
    exact hne hx
  have hyne : K.map Prod.snd ≠ [] := by
    intro hx
    rw [List.map_eq_nil_iff] at hx
    exact hne hx
  have hxmax : listMaxD (K.map Prod.fst) < (w + tile - 1) / tile := by
    apply listMaxD_lt hxne
    intro a ha
    rw [List.mem_map] at ha
    obtain ⟨c, hc, rfl⟩ := ha
    exact (hcells c hc).1
  have hymax : listMaxD (K.map Prod.snd) < (h + tile - 1) / tile := by
    apply listMaxD_lt hyne
    intro a ha
    rw [List.mem_map] at ha
    obtain ⟨c, hc, rfl⟩ := ha
    exact (hcells c hc).2
  have hxmaxw : listMaxD (K.map Prod.fst) * tile < w := mul_lt_of_lt_ceil ht hxmax
  have hymaxh : listMaxD (K.map Prod.snd) * tile < h := mul_lt_of_lt_ceil ht hymax
  have hxmin : listMinD (K.map Prod.fst) ≤ listMaxD (K.map Prod.fst) :=
    le_trans (listMinD_le (List.mem_map_of_mem Prod.fst hc0))
      (le_listMaxD (List.mem_map_of_mem Prod.fst hc0))
  have hymin : listMinD (K.map Prod.snd) ≤ listMaxD (K.map Prod.snd) :=
    le_trans (listMinD_le (List.mem_map_of_mem Prod.snd hc0))
      (le_listMaxD (List.mem_map_of_mem Prod.snd hc0))
  have hx1 : listMinD (K.map Prod.fst) * tile ≤ listMaxD (K.map Prod.fst) * tile :=
    Nat.mul_le_mul_right tile hxmin
  have hy1 : listMinD (K.map Prod.snd) * tile ≤ listMaxD (K.map Prod.snd) * tile :=
    Nat.mul_le_mul_right tile hymin
  have hx2 : listMaxD (K.map Prod.fst) * tile < (listMaxD (K.map Prod.fst) + 1) * tile := by
    have : (listMaxD (K.map Prod.fst) + 1) * tile = listMaxD (K.map Prod.fst) * tile + tile := by
      ring
    omega
  have hy2 : listMaxD (K.map Prod.snd) * tile < (listMaxD (K.map Prod.snd) + 1) * tile := by
    have : (listMaxD (K.map Prod.snd) + 1) * tile = listMaxD (K.map Prod.snd) * tile + tile := by
      ring
    omega
  omega

theorem sort_mem {comps out : List (List Cell)} {mode : String}
    (h : sort_components comps mode = Except.ok out) :
    ∀ K ∈ out, K ∈ comps := by
  rw [sort_components] at h
  split_ifs at h with h1 h2 h3
  · injection h with h
    subst h
    exact fun K hK => hK
  · injection h with h
    subst h
    intro K hK
    exact (List.mergeSort_perm comps _).mem_iff.mp hK
  · injection h with h
    subst h
    intro K hK
    exact (List.mergeSort_perm comps _).mem_iff.mp hK

/-- Unpacking a successful run of `extract_sprites`: every emitted sprite is
`mkSprite` of a nonempty component of the coarse grid of the image's mask
whose cells are inside the coarse grid. -/
theorem extract_sprite_cells {img : Img} {in_path : String} {tile : Nat}
    {mode : String} {min_cells : Nat} {label : Bool} {r} (ht : 1 ≤ tile)
    (hok : extract_sprites img in_path tile mode min_cells label = Except.ok r)
    {s} (hs : s ∈ r.1) :
    ∃ K, s = mkSprite img (foreground_mask img) tile K ∧ K ≠ [] ∧
      K ∈ flood_components_8 (downscale_any (foreground_mask img) tile).1 ∧
      min_cells ≤ K.length ∧
      (∀ c ∈ K, c.1 < (img.w + tile - 1) / tile ∧ c.2 < (img.h + tile - 1) / tile) := by
  simp only [extract_sprites] at hok
  set m := foreground_mask img with hm_def
  set small := (downscale_any m tile).1 with hsmall_def
  set comps1 := (flood_components_8 small).filter
    (fun c => decide (min_cells ≤ c.length)) with hcomps1_def
  cases hsort : sort_components comps1 mode with
  | error e =>
    rw [hsort] at hok
    cases hok
  | ok comps =>
    rw [hsort] at hok
    injection hok with hok
    subst hok
    simp only [List.mem_map] at hs
    obtain ⟨K, hK, rfl⟩ := hs
    have hKmem : K ∈ comps1 := sort_mem hsort K hK
    have hKflood : K ∈ flood_components_8 small := (List.mem_filter.mp hKmem).1
    have hKcnt : min_cells ≤ K.length := by
      have := (List.mem_filter.mp hKmem).2
      simpa using this
    have hKne : K ≠ [] := by
      obtain ⟨s0, t0, hshape, _⟩ := (flood_spec small).2.2.2.2.2.1 K hKflood
      rw [hshape]
      exact List.cons_ne_nil s0 t0
    refine ⟨K, rfl, hKne, hKflood, hKcnt, ?_⟩
    intro c hc
    obtain ⟨hb1, hb2, _⟩ := (flood_spec small).2.1 K hKflood c hc
    have hgh : gridH small = (img.h + tile - 1) / tile := by
      rw [hsmall_def, downscale_gridH, hm_def, gridH_foreground_mask]
    have hghpos : 0 < (img.h + tile - 1) / tile := by
      rw [← hgh]
      omega
    have hhpos : 0 < img.h := by
      by_contra hh
      have hh0 : img.h = 0 := by omega
      rw [hh0] at hghpos
      have ht1 : (0 + tile - 1) / tile = 0 := Nat.div_eq_of_lt (by omega)
      omega
    have hgw : gridW small = (img.w + tile - 1) / tile := by
      rw [hsmall_def, downscale_gridW _ _ (by rw [hm_def, gridH_foreground_mask]; exact hghpos),
        hm_def, gridW_foreground_mask img hhpos]
    rw [hgw] at hb1
    rw [hgh] at hb2
    exact ⟨hb1, hb2⟩

/-- The result of the pipeline on the Scenario A sheet. -/
def wRes : List SpriteOut × Atlas :=
  match extract_sprites wImg4 "sheet.png" 2 "topleft" 1 true with
  | Except.ok r => r
  | Except.error _ => ([], ⟨"", 0, 0, 0, 0, 0, 0, []⟩)

/-! Section: Claim theorems: crop safety and masking -/

/-- Claim C10: every sprite of a successful pipeline run has a crop box
`(x0, y0, x1, y1)` with `x0 < x1 ≤ image width` and `y0 < y1 ≤ image height`,
and every crop-local pixel `(p, q)` yields in-bounds indices `full_mask[gy]`
and `full_mask[gy][gx]` for the masking step, so no out-of-range access is
reachable. -/
theorem crop_box_bounds_spec (img : Img) (in_path : String) (tile : Nat)
    (mode : String) (min_cells : Nat) (label : Bool) (ht : 1 ≤ tile)
    (r : List SpriteOut × Atlas)
    (hok : extract_sprites img in_path tile mode min_cells label = Except.ok r)
    (s : SpriteOut) (hs : s ∈ r.1) :
    s.x0 < s.x1 ∧ s.x1 ≤ img.w ∧ s.y0 < s.y1 ∧ s.y1 ≤ img.h ∧
    (∀ p q : Nat, p < s.x1 - s.x0 → q < s.y1 - s.y0 →
      s.y0 + q < (foreground_mask img).length ∧
      s.x0 + p < ((foreground_mask img).getD (s.y0 + q) []).length) := by
  obtain ⟨K, rfl, hne, hflood, hcnt, hcells⟩ := extract_sprite_cells ht hok hs
  obtain ⟨hx, hxw, hy, hyh⟩ := cropBox_bounds ht hne hcells
  simp only [mkSprite]
  refine ⟨hx, hxw, hy, hyh, ?_⟩
  intro p q hp hq
  have hyq : listMinD (K.map Prod.snd) * tile + q < img.h := by omega
  have hxp : listMinD (K.map Prod.fst) * tile + p < img.w := by omega
  have hylen : listMinD (K.map Prod.snd) * tile + q < (foreground_mask img).length := by
    rw [foreground_mask_length]
    exact hyq
  refine ⟨hylen, ?_⟩
  rw [List.getD_eq_getElem _ _ hylen]
  rw [foreground_mask_rows img _ (List.getElem_mem hylen)]
  exact hxp

theorem crop_box_bounds_witness :
    1 ≤ 2 ∧ extract_sprites wImg4 "sheet.png" 2 "topleft" 1 true = Except.ok wRes ∧
    ∀ s ∈ wRes.1, s.x0 < s.x1 ∧ s.x1 ≤ wImg4.w :=
  ⟨by decide, rfl, fun s hs =>
    ⟨(crop_box_bounds_spec wImg4 "sheet.png" 2 "topleft" 1 true (by decide)
        wRes rfl s hs).1,
      (crop_box_bounds_spec wImg4 "sheet.png" 2 "topleft" 1 true (by decide)
        wRes rfl s hs).2.1⟩⟩

/-- Claim C1: for every crop pixel of every emitted sprite, the output alpha is
nonzero iff the pixel's coarse cell belongs to the sprite's component and the
full-resolution mask is true at its global coordinates; an erased pixel keeps
its RGB and only zeroes alpha, and a kept pixel equals the source (RGBA) pixel
unchanged. -/
theorem apply_component_mask_alpha_spec (img : Img) (in_path : String) (tile : Nat)
    (mode : String) (min_cells : Nat) (label : Bool) (ht : 1 ≤ tile)
    (r : List SpriteOut × Atlas)
    (hok : extract_sprites img in_path tile mode min_cells label = Except.ok r)
    (s : SpriteOut) (hs : s ∈ r.1) (p q : Nat)
    (hp : p < s.x1 - s.x0) (hq : q < s.y1 - s.y0) :
    (alphaOf (s.image p q) ≠ 0 ↔
      ((s.x0 + p) / tile, (s.y0 + q) / tile) ∈ s.cells ∧
        maskAt (foreground_mask img) (s.x0 + p) (s.y0 + q) = true) ∧
    ((((s.x0 + p) / tile, (s.y0 + q) / tile) ∉ s.cells ∨
        maskAt (foreground_mask img) (s.x0 + p) (s.y0 + q) = false) →
      s.image p q = ((toRGBA img (s.x0 + p) (s.y0 + q)).1,
        (toRGBA img (s.x0 + p) (s.y0 + q)).2.1,
        (toRGBA img (s.x0 + p) (s.y0 + q)).2.2.1, 0)) ∧
    ((((s.x0 + p) / tile, (s.y0 + q) / tile) ∈ s.cells ∧
        maskAt (foreground_mask img) (s.x0 + p) (s.y0 + q) = true) →
      s.image p q = toRGBA img (s.x0 + p) (s.y0 + q)) := by
  obtain ⟨K, rfl, hne, hflood, hcnt, hcells⟩ := extract_sprite_cells ht hok hs
  obtain ⟨hx, hxw, hy, hyh⟩ := cropBox_bounds ht hne hcells
  simp only [mkSprite] at hp hq ⊢
  set x0 := listMinD (K.map Prod.fst) * tile with hx0
  set y0 := listMinD (K.map Prod.snd) * tile with hy0
  have hgx : x0 + p < img.w := by omega
  have hgy : y0 + q < img.h := by omega
  simp only [apply_component_mask]
  by_cases hcond : ((x0 + p) / tile, (y0 + q) / tile) ∉ K ∨
      maskAt (foreground_mask img) (x0 + p) (y0 + q) = false
  · rw [if_pos hcond]
    refine ⟨?_, fun _ => rfl, fun hcontra => ?_⟩
    · simp only [alphaOf]
      constructor
      · intro h0
        exact absurd rfl h0
      · rintro ⟨hmem, hmask⟩
        exfalso
        rcases hcond with hcond | hcond
        · exact hcond hmem
        · rw [hcond] at hmask
          exact Bool.false_ne_true hmask
    · exfalso
      rcases hcond with hcond | hcond
      · exact hcond hcontra.1
      · rw [hcond] at hcontra
        exact Bool.false_ne_true hcontra.2
  · rw [if_neg hcond]
    push_neg at hcond
    obtain ⟨hmem, hmaskne⟩ := hcond
    have hmask : maskAt (foreground_mask img) (x0 + p) (y0 + q) = true :=
      Bool.not_eq_false _ |>.mp hmaskne
    have halpha : alphaOf (toRGBA img (x0 + p) (y0 + q)) ≠ 0 := by
      rw [toRGBA]
      split
      · rename_i hA
        have := maskAt_foreground hgx hgy
        rw [hmask, if_pos hA] at this
        have h0 : 0 < alphaOf (img.px (x0 + p) (y0 + q)) := by
          have := this.symm
          simpa using this
        omega
      · simp [alphaOf]
    refine ⟨?_, fun hcontra => ?_, fun _ => rfl⟩
    · exact ⟨fun _ => ⟨hmem, hmask⟩, fun _ => halpha⟩
    · exfalso
      rcases hcontra with hcontra | hcontra
      · exact hcontra hmem
      · rw [hcontra] at hmask
        exact Bool.false_ne_true hmask

theorem apply_component_mask_witness :
    1 ≤ 2 ∧ extract_sprites wImg4 "sheet.png" 2 "topleft" 1 true = Except.ok wRes ∧
    ∀ s ∈ wRes.1, ∀ p q : Nat, p < s.x1 - s.x0 → q < s.y1 - s.y0 →
      (alphaOf (s.image p q) ≠ 0 ↔
        ((s.x0 + p) / 2, (s.y0 + q) / 2) ∈ s.cells ∧
          maskAt (foreground_mask wImg4) (s.x0 + p) (s.y0 + q) = true) :=
  ⟨by decide, rfl, fun s hs p q hp hq =>
    (apply_component_mask_alpha_spec wImg4 "sheet.png" 2 "topleft" 1 true (by decide)
      wRes rfl s hs p q hp hq).1⟩

/-! Section: Background color selection -/

/-- Index of the first occurrence of `a` (length of the list if absent). -/
def posOf (a : RGB) : List RGB → Nat
  | [] => 0
  | b :: l => if b = a then 0 else posOf a l + 1

theorem mem_firstOccs : ∀ (l : List RGB) (a : RGB), a ∈ firstOccs l ↔ a ∈ l := by
  intro l
  induction l using firstOccs.induct with
  | case1 => intro a; rw [firstOccs]
  | case2 c rest ih =>
    intro a
    rw [firstOccs, List.mem_cons, List.mem_cons, ih]
    by_cases hac : a = c
    · simp [hac]
    · simp only [List.mem_filter, decide_eq_true_eq]
      constructor
      · rintro (h | ⟨h, _⟩)
        · exact Or.inl h
        · exact Or.inr h
      · rintro (h | h)
        · exact Or.inl h
        · exact Or.inr ⟨h, by simpa using hac⟩

theorem posOf_filter_mono (p : RGB → Bool) :
    ∀ (l : List RGB) (a b : RGB), a ∈ l.filter p → b ∈ l.filter p →
    posOf a (l.filter p) ≤ posOf b (l.filter p) → posOf a l ≤ posOf b l := by
  intro l
  induction l with
  | nil => intro a b ha _ _; exact absurd ha (by simp)
  | cons d l ih =>
    intro a b ha hb hle
    by_cases hpd : p d = true
    · rw [List.filter_cons_of_pos hpd] at ha hb hle
      by_cases hda : d = a
      · rw [posOf, if_pos hda]
        omega
      · by_cases hdb : d = b
        · exfalso
          rw [posOf, if_neg hda, posOf, if_pos hdb] at hle
          omega
        · rw [posOf, if_neg hda, posOf, if_neg hdb] at hle ⊢
          have ha2 : a ∈ l.filter p := by
            rcases List.mem_cons.mp ha with h | h
            · exact absurd h.symm hda
            · exact h
          have hb2 : b ∈ l.filter p := by
            rcases List.mem_cons.mp hb with h | h
            · exact absurd h.symm hdb
            · exact h
          have := ih a b ha2 hb2 (by omega)
          omega
    · rw [List.filter_cons_of_neg (by simpa using hpd)] at ha hb hle
      have hda : d ≠ a := by
        intro h
        have := List.mem_filter.mp ha
        rw [← h] at this
        exact hpd this.2
      have hdb : d ≠ b := by
        intro h
        have := List.mem_filter.mp hb
        rw [← h] at this
        exact hpd this.2
      rw [posOf, if_neg hda, posOf, if_neg hdb]
      have := ih a b ha hb hle
      omega

theorem firstOccs_before :
    ∀ (l P Q : List RGB) (a : RGB), firstOccs l = P ++ a :: Q →
    ∀ b ∈ Q, posOf a l ≤ posOf b l := by
  intro l
  induction l using firstOccs.induct with
  | case1 =>
    intro P Q a h
    rw [firstOccs] at h
    exact absurd h.symm (List.append_ne_nil_of_right_ne_nil P (List.cons_ne_nil a Q))
  | case2 c rest ih =>
    intro P Q a h b hb
    rw [firstOccs] at h
    cases P with
    | nil =>
      simp only [List.nil_append] at h
      injection h with h1 h2
      subst h1
      rw [posOf, if_pos rfl]
      omega
    | cons c2 P2 =>
      rw [List.cons_append] at h
      injection h with h1 h2
      subst h1
      have haq : a ∈ firstOccs (rest.filter fun d => d ≠ c) := by
        rw [h2]
        exact List.mem_append.mpr (Or.inr (List.mem_cons_self a Q))
      have hbq : b ∈ firstOccs (rest.filter fun d => d ≠ c) := by
        rw [h2]
        exact List.mem_append.mpr (Or.inr (List.mem_cons_of_mem a hb))
      have haf := (mem_firstOccs _ a).mp haq
      have hbf := (mem_firstOccs _ b).mp hbq
      have hac : a ≠ c := by
        have := List.mem_filter.mp haf
        simpa using this.2
      have hbc : b ≠ c := by
        have := List.mem_filter.mp hbf
        simpa using this.2
      have hrec := ih P2 Q a h2 b hb
      have hmono := posOf_filter_mono (fun d => decide (d ≠ c)) rest a b haf hbf hrec
      rw [posOf, if_neg (fun he => hac he.symm), posOf, if_neg (fun he => hbc he.symm)]
      omega

theorem le_foldr_max : ∀ {l : List Nat} {a : Nat}, a ∈ l → a ≤ l.foldr max 0 := by
  intro l
  induction l with
  | nil => intro a h; exact absurd h (List.not_mem_nil a)
  | cons x xs ih =>
    intro a h
    rw [List.foldr_cons]
    rcases List.mem_cons.mp h with rfl | h
    · omega
    · have := ih h
      omega

theorem foldr_max_mem : ∀ (l : List Nat), l ≠ [] → l.foldr max 0 ∈ l := by
  intro l
  induction l with
  | nil => intro h; exact absurd rfl h
  | cons x xs ih =>
    intro _
    rw [List.foldr_cons]
    cases xs with
    | nil => simp
    | cons y ys =>
      rcases Nat.le_total x ((y :: ys).foldr max 0) with h | h
      · rw [Nat.max_eq_right h]
        exact List.mem_cons_of_mem x (ih (List.cons_ne_nil y ys))
      · rw [Nat.max_eq_left h]
        exact List.mem_cons_self _ _

theorem count_le_maxCount {s : List RGB} {c : RGB} (h : c ∈ s) :
    s.count c ≤ maxCount s := by
  rw [maxCount]
  exact le_foldr_max (List.mem_map_of_mem _ h)

theorem maxCount_attained {s : List RGB} (h : s ≠ []) :
    ∃ c ∈ s, s.count c = maxCount s := by
  have hne : (s.map fun d => s.count d) ≠ [] := by simpa using h
  have hmem := foldr_max_mem _ hne
  rw [List.mem_map] at hmem
  obtain ⟨c, hc, hcc⟩ := hmem
  exact ⟨c, hc, hcc⟩

/-- The function `most_common_rgb` picks a sampled color of maximal multiplicity, the
first-encountered one among those tied for the maximum. -/
theorem most_common_rgb_max {img : Img} (h : sampledColors img ≠ []) :
    most_common_rgb img ∈ sampledColors img ∧
    (∀ c ∈ sampledColors img,
      (sampledColors img).count c ≤ (sampledColors img).count (most_common_rgb img)) ∧
    (∀ c ∈ sampledColors img,
      (sampledColors img).count c = (sampledColors img).count (most_common_rgb img) →
      posOf (most_common_rgb img) (sampledColors img) ≤ posOf c (sampledColors img)) := by
  obtain ⟨c0, hc0, hcc0⟩ := maxCount_attained h
  have hsome : ((firstOccs (sampledColors img)).find? fun c =>
      decide ((sampledColors img).count c = maxCount (sampledColors img))).isSome = true := by
    rw [List.find?_isSome]
    exact ⟨c0, (mem_firstOccs _ c0).mpr hc0, by simpa using hcc0⟩
  obtain ⟨bg, hbg⟩ := Option.isSome_iff_exists.mp hsome
  have hbgdef : most_common_rgb img = bg := by
    simp only [most_common_rgb]
    rw [hbg]
    rfl
  obtain ⟨hpred, as, bs, hdec, hnot⟩ := List.find?_eq_some.mp hbg
  have hbgmax : (sampledColors img).count bg = maxCount (sampledColors img) := by
    simpa using hpred
  have hbgmem : bg ∈ sampledColors img := by
    rw [← mem_firstOccs, hdec]
    exact List.mem_append.mpr (Or.inr (List.mem_cons_self bg bs))
  rw [hbgdef]
  refine ⟨hbgmem, ?_, ?_⟩
  · intro c hc
    rw [hbgmax]
    exact count_le_maxCount hc
  · intro c hc hcnt
    have hcfo : c ∈ firstOccs (sampledColors img) := (mem_firstOccs _ c).mpr hc
    rw [hdec] at hcfo
    rcases List.mem_append.mp hcfo with hmem | hmem
    · exfalso
      have := hnot c hmem
      rw [hcnt, hbgmax] at this
      simp at this
    · rcases List.mem_cons.mp hmem with rfl | hmem
      · omega
      · exact firstOccs_before (sampledColors img) as bs bg hdec c hmem

theorem mem_pyRange {stop step x : Nat} (hs : step = 1 ∨ step = 2) :
    x ∈ pyRange stop step ↔ step ∣ x ∧ x < stop := by
  rw [pyRange, List.mem_range']
  constructor
  · rintro ⟨i, hi, rfl⟩
    refine ⟨⟨i, by omega⟩, ?_⟩
    rcases hs with rfl | rfl <;> omega
  · rintro ⟨⟨k, hk⟩, hlt⟩
    refine ⟨k, ?_, by omega⟩
    rcases hs with rfl | rfl <;> omega

theorem sampleStep_cases (img : Img) : sampleStep img = 1 ∨ sampleStep img = 2 := by
  rw [sampleStep]
  split
  · exact Or.inl rfl
  · exact Or.inr rfl

theorem mem_sampledColors {img : Img} {c : RGB} :
    c ∈ sampledColors img ↔ ∃ x y : Nat, x < img.w ∧ y < img.h ∧
      sampleStep img ∣ x ∧ sampleStep img ∣ y ∧ c = rgbOf (img.px x y) := by
  rw [sampledColors, List.mem_flatMap]
  constructor
  · rintro ⟨y, hy, hc⟩
    rw [List.mem_map] at hc
    obtain ⟨x, hx, rfl⟩ := hc
    rw [mem_pyRange (sampleStep_cases img)] at hy hx
    exact ⟨x, y, hx.2, hy.2, hx.1, hy.1, rfl⟩
  · rintro ⟨x, y, hxw, hyh, hdx, hdy, rfl⟩
    exact ⟨y, (mem_pyRange (sampleStep_cases img)).mpr ⟨hdy, hyh⟩,
      List.mem_map.mpr ⟨x, (mem_pyRange (sampleStep_cases img)).mpr ⟨hdx, hxw⟩, rfl⟩⟩

/-- Claim C9: for an image without an alpha band, the sampled colors are exactly the
pixels whose coordinates are multiples of the stride (stride 1 when
`w*h ≤ 2,000,000`, stride 2 otherwise); the chosen background reference color
is a sampled color of maximal sampled frequency whose first occurrence is
earliest among the colors tied for that maximum; and a pixel is foreground iff
its RGB value differs from the reference color. -/
theorem most_common_rgb_spec (img : Img) (hna : img.hasAlpha = false)
    (hw : 0 < img.w) (hh : 0 < img.h) :
    ((img.w * img.h ≤ 2000000 → sampleStep img = 1) ∧
      (2000000 < img.w * img.h → sampleStep img = 2)) ∧
    (∀ c : RGB, c ∈ sampledColors img ↔ ∃ x y : Nat, x < img.w ∧ y < img.h ∧
      sampleStep img ∣ x ∧ sampleStep img ∣ y ∧ c = rgbOf (img.px x y)) ∧
    most_common_rgb img ∈ sampledColors img ∧
    (∀ c ∈ sampledColors img,
      (sampledColors img).count c ≤ (sampledColors img).count (most_common_rgb img)) ∧
    (∀ c ∈ sampledColors img,
      (sampledColors img).count c = (sampledColors img).count (most_common_rgb img) →
      posOf (most_common_rgb img) (sampledColors img) ≤ posOf c (sampledColors img)) ∧
    (∀ x y : Nat, x < img.w → y < img.h →
      (maskAt (foreground_mask img) x y = true ↔
        rgbOf (img.px x y) ≠ most_common_rgb img)) := by
  have hne : sampledColors img ≠ [] := by
    have h0 : rgbOf (img.px 0 0) ∈ sampledColors img :=
      mem_sampledColors.mpr ⟨0, 0, hw, hh, Dvd.intro 0 rfl, Dvd.intro 0 rfl, rfl⟩
    exact List.ne_nil_of_mem h0
  obtain ⟨hmem, hmax, htie⟩ := most_common_rgb_max hne
  refine ⟨⟨?_, ?_⟩, fun c => mem_sampledColors, hmem, hmax, htie, ?_⟩
  · intro h
    rw [sampleStep, if_pos h]
  · intro h
    rw [sampleStep, if_neg (by omega)]
  · intro x y hx hy
    rw [maskAt_foreground hx hy, if_neg (by rw [hna]; exact Bool.false_ne_true)]
    exact decide_eq_true_iff

theorem most_common_rgb_witness :
    (⟨2, 1, fun x _ => if x = 0 then (5, 5, 5, 0) else (7, 7, 7, 0), false⟩ : Img).hasAlpha
        = false ∧
    0 < (2 : Nat) ∧ 0 < (1 : Nat) ∧
    most_common_rgb ⟨2, 1, fun x _ => if x = 0 then (5, 5, 5, 0) else (7, 7, 7, 0), false⟩ ∈
      sampledColors ⟨2, 1, fun x _ => if x = 0 then (5, 5, 5, 0) else (7, 7, 7, 0), false⟩ :=
  ⟨rfl, by decide, by decide,
    (most_common_rgb_spec ⟨2, 1, fun x _ => if x = 0 then (5, 5, 5, 0) else (7, 7, 7, 0), false⟩
      rfl (by decide) (by decide)).2.2.1⟩

/-! Section: Claim theorems: command-line validation -/

theorem sort_components_ok (comps : List (List Cell)) {mode : String}
    (h : mode ∈ sortChoices) : ∃ out, sort_components comps mode = Except.ok out := by
  simp only [sortChoices, List.mem_cons, List.not_mem_nil, or_false] at h
  rcases h with rfl | rfl | rfl
  · exact ⟨comps, rfl⟩
  · exact ⟨_, rfl⟩
  · exact ⟨_, rfl⟩

theorem extract_sprites_ok (img : Img) (in_path : String) (tile : Nat) {mode : String}
    (h : mode ∈ sortChoices) (min_cells : Nat) (label : Bool) :
    ∃ r, extract_sprites img in_path tile mode min_cells label = Except.ok r := by
  simp only [extract_sprites]
  obtain ⟨out, hout⟩ := sort_components_ok
    ((flood_components_8 (downscale_any (foreground_mask img) tile).1).filter
      fun c => decide (min_cells ≤ c.length)) h
  rw [hout]
  exact ⟨_, rfl⟩

/-- Claim C7: a tile size or minimum cell count below 1 makes the run exit with a
nonzero status, write nothing, and never look at the image; any valid
configuration (known sort mode, tile ≥ 1, min-cells ≥ 1) exits with status 0
after producing the atlas descriptor. -/
theorem mainRun_validation_spec (a : Args) (img : Img) :
    ((a.tile < 1 ∨ a.min_cells < 1) →
      (mainRun a img).1 ≠ 0 ∧ (mainRun a img).2 = none ∧
      ∀ img2 : Img, mainRun a img2 = mainRun a img) ∧
    (a.sort ∈ sortChoices → 1 ≤ a.tile → 1 ≤ a.min_cells →
      (mainRun a img).1 = 0 ∧ ∃ res : Atlas, (mainRun a img).2 = some res) := by
  constructor
  · intro hbad
    have hrun : ∀ img2 : Img, mainRun a img2 = (2, none) ∨
        mainRun a img2 = (1, none) := by
      intro img2
      by_cases hsort : a.sort ∈ sortChoices
      · by_cases htile : a.tile ≤ 0
        · right
          rw [mainRun, if_neg (not_not_intro hsort), if_pos htile]
        · right
          rw [mainRun, if_neg (not_not_intro hsort), if_neg htile,
            if_pos (show a.min_cells ≤ 0 by omega)]
      · left
        rw [mainRun, if_pos hsort]
    have hfix : ∀ img2 : Img, mainRun a img2 = mainRun a img := by
      intro img2
      by_cases hsort : a.sort ∈ sortChoices
      · by_cases htile : a.tile ≤ 0
        · rw [mainRun, if_neg (not_not_intro hsort), if_pos htile,
            mainRun, if_neg (not_not_intro hsort), if_pos htile]
        · rw [mainRun, if_neg (not_not_intro hsort), if_neg htile,
            if_pos (show a.min_cells ≤ 0 by omega),
            mainRun, if_neg (not_not_intro hsort), if_neg htile,
            if_pos (show a.min_cells ≤ 0 by omega)]
      · rw [mainRun, if_pos hsort, mainRun, if_pos hsort]
    rcases hrun img with h | h <;>
      exact ⟨by rw [h]; simp, by rw [h], hfix⟩
  · intro hsort htile hmin
    obtain ⟨r, hr⟩ := extract_sprites_ok img a.input a.tile.toNat hsort
      a.min_cells.toNat (!a.no_label)
    rw [mainRun, if_neg (not_not_intro hsort), if_neg (by omega), if_neg (by omega), hr]
    exact ⟨rfl, r.2, rfl⟩

theorem mainRun_validation_witness :
    ((0 : Int) < 1 ∨ (1 : Int) < 1) ∧
    (mainRun ⟨"s", "o", 0, "a", "topleft", 1, false⟩ wImg4).1 ≠ 0 ∧
    ("topleft" ∈ sortChoices ∧ (1 : Int) ≤ 2 ∧ (1 : Int) ≤ 1) ∧
    (mainRun ⟨"s", "o", 2, "a", "topleft", 1, false⟩ wImg4).1 = 0 :=
  ⟨Or.inl (by decide),
    ((mainRun_validation_spec ⟨"s", "o", 0, "a", "topleft", 1, false⟩ wImg4).1
      (Or.inl (by decide))).1,
    ⟨by decide, by decide, by decide⟩,
    ((mainRun_validation_spec ⟨"s", "o", 2, "a", "topleft", 1, false⟩ wImg4).2
      (by decide) (by decide) (by decide)).1⟩

/-- Claim C8: an unknown `--sort` value is rejected by the argument parser (exit
status 2) before the image is even consulted: the result is nonzero, nothing
is written, and the outcome does not depend on the image at all. -/
theorem mainRun_unknown_sort_spec (a : Args) (img : Img) (h : a.sort ∉ sortChoices) :
    (mainRun a img).1 ≠ 0 ∧ (mainRun a img).2 = none ∧
    ∀ img2 : Img, mainRun a img2 = mainRun a img := by
  have hrun : ∀ img2 : Img, mainRun a img2 = (2, none) := by
    intro img2
    rw [mainRun, if_pos h]
  refine ⟨?_, ?_, ?_⟩
  · rw [hrun img]
    simp
  · rw [hrun img]
  · intro img2
    rw [hrun img2, hrun img]

theorem mainRun_unknown_sort_witness :
    ("bogus" ∉ sortChoices) ∧
    (mainRun ⟨"s", "o", 2, "a", "bogus", 1, false⟩ wImg4).1 ≠ 0 :=
  ⟨by decide, (mainRun_unknown_sort_spec ⟨"s", "o", 2, "a", "bogus", 1, false⟩ wImg4
    (by decide)).1⟩
